import Mathlib

/-!
Verification development for the tally42 core (treemcgee42/tools42).

Embedded Rust sources:
- `src/tally42/src/core/migration.rs` : migration file-name parsing
  (`Migration::from_file_name`), discovery (`Migration::from_source`) and the
  ledger-driven `MigrationRunner::run`.
- `src/tally42/src/db.rs` : account / statement CRUD (`create_account`,
  `rename_account`, `close_account`, `create_statement`, `list_accounts`).
- `src/tally42/src/core/user_data.rs` : the content-addressed statement
  ingestion pipeline (`UserDataManager::add_statement`,
  `find_statement_file_path`).

Filesystem and sqlite effects are embedded as explicit state passing.  Each
fallible operating-system call takes its outcome from a fault record
(`AddEnv`), consulted in exactly the order the Rust code performs the calls.
The sqlite schema itself lives in migration files that are not part of the
Rust sources, so the table constraints are modelled from the spec where noted.
-/

/-- Bytes of a file, one natural number per byte. -/
abbrev Bytes := List Nat

/-- Abstract operating-system I/O error; `std::io::Error` carries no structure
the embedded code inspects, so only an error code is kept. -/
structure IoError where
  code : Nat
deriving DecidableEq, Repr

/-- A UUID (`uuid::Uuid`), identified by its 128-bit numeric value.  The
canonical hyphenated lowercase-hex rendering is strictly monotone in this
value, so sqlite's binary text order on stored UUID columns coincides with
the numeric order on `val`. -/
structure Uuid where
  val : Nat
deriving DecidableEq, Repr

/-! Rust `std::path` helpers, embedded on character lists. -/

/-- Split a character list on `/` into path components (empty components
included, as `std::path` sees them before normalization). -/
def splitSlash : List Char → List (List Char)
  | [] => [[]]
  | c :: rest =>
    if c = '/' then [] :: splitSlash rest
    else
      match splitSlash rest with
      | h :: t => (c :: h) :: t
      | [] => [[c]]

/-- Rust `Path::file_name` on a path given as a character list: the last
component after dropping empty and `.` components, unless it is `..`. -/
def rustFileNameL (cs : List Char) : Option (List Char) :=
  match ((splitSlash cs).filter (fun c => decide (c ≠ [] ∧ c ≠ ['.']))).getLast? with
  | none => none
  | some c => if c = ['.', '.'] then none else some c

/-- Rust `Path::file_stem` / `Path::extension` splitting of a file name:
split at the last `.`, except that a `.` in leading position does not count
(so `.hidden` has no extension and is its own stem). -/
def splitStemExtL (f : List Char) : List Char × Option (List Char) :=
  match f.reverse.dropWhile (fun c => decide (c ≠ '.')) with
  | '.' :: stemR =>
    if stemR.isEmpty then (f, none)
    else (stemR.reverse, some ((f.reverse.takeWhile (fun c => decide (c ≠ '.'))).reverse))
  | _ => (f, none)

/-- Rust `Path::new(p).file_name()` (with lossless UTF-8 conversion). -/
def rustFileName (p : String) : Option String :=
  (rustFileNameL p.data).map String.mk

/-- Rust `Path::new(p).file_stem()` (with lossless UTF-8 conversion). -/
def rustFileStem (p : String) : Option String :=
  (rustFileNameL p.data).map (fun f => String.mk (splitStemExtL f).1)

/-- Rust `Path::new(p).extension()` (with lossless UTF-8 conversion). -/
def rustExtension (p : String) : Option String :=
  (rustFileNameL p.data).bind (fun f => ((splitStemExtL f).2).map String.mk)

/-- ASCII lowercasing of one character, as Rust `char::to_ascii_lowercase`
(the uppercase ASCII letters are code points 65 to 90). -/
def asciiLower (c : Char) : Char :=
  if 65 ≤ c.toNat ∧ c.toNat ≤ 90 then Char.ofNat (c.toNat + 32) else c

/-- Rust `str::eq_ignore_ascii_case`. -/
def eqIgnoreAsciiCase (a b : String) : Bool :=
  a.data.map asciiLower == b.data.map asciiLower

/-! Rust `u32::from_str` (`str::parse::<u32>()`). -/

/-- The error kinds `core::num::ParseIntError` can take for `u32` parsing. -/
inductive ParseIntErrorKind
  | Empty
  | InvalidDigit
  | PosOverflow
deriving DecidableEq, Repr

/-- Value of a decimal digit string (leading zeros permitted). -/
def digitsToNat (ds : List Char) : Nat :=
  ds.foldl (fun acc c => acc * 10 + (c.toNat - 48)) 0

/-- Rust `str::parse::<u32>()`: an optional leading `+`, then one or more
ASCII digits, value below `2^32`. -/
def parseU32core (cs : List Char) : Except ParseIntErrorKind Nat :=
  match cs with
  | [] => .error .Empty
  | c :: rest =>
    let ds := if c = '+' then rest else c :: rest
    if ds.isEmpty then .error .InvalidDigit
    else if ds.all Char.isDigit then
      if digitsToNat ds < 4294967296 then .ok (digitsToNat ds)
      else .error .PosOverflow
    else .error .InvalidDigit

/-- Rust `str::split_once`: split at the first occurrence of `sep`. -/
def splitOnceChars (sep : Char) : List Char → Option (List Char × List Char)
  | [] => none
  | c :: rest =>
    if c = sep then some ([], rest)
    else (splitOnceChars sep rest).map (fun p => (c :: p.1, p.2))

/-! SHA-256 (the `sha2` crate's `Sha256`), computed over the byte list. -/

/-- Truncation to a 32-bit word. -/
def w32 (n : Nat) : Nat := n % 4294967296

/-- Right rotation of a 32-bit word by `k`. -/
def rotr32 (k x : Nat) : Nat := x / 2 ^ k + x % 2 ^ k * 2 ^ (32 - k)

/-- Logical right shift of a 32-bit word by `k`. -/
def shr32 (k x : Nat) : Nat := x / 2 ^ k

/-- SHA-256 big sigma 0. -/
def bsig0 (x : Nat) : Nat := (rotr32 2 x) ^^^ (rotr32 13 x) ^^^ (rotr32 22 x)

/-- SHA-256 big sigma 1. -/
def bsig1 (x : Nat) : Nat := (rotr32 6 x) ^^^ (rotr32 11 x) ^^^ (rotr32 25 x)

/-- SHA-256 small sigma 0. -/
def ssig0 (x : Nat) : Nat := (rotr32 7 x) ^^^ (rotr32 18 x) ^^^ (shr32 3 x)

/-- SHA-256 small sigma 1. -/
def ssig1 (x : Nat) : Nat := (rotr32 17 x) ^^^ (rotr32 19 x) ^^^ (shr32 10 x)

/-- SHA-256 choice function. -/
def chFn (x y z : Nat) : Nat := (x &&& y) ^^^ ((4294967295 ^^^ x) &&& z)

/-- SHA-256 majority function. -/
def majFn (x y z : Nat) : Nat := (x &&& y) ^^^ (x &&& z) ^^^ (y &&& z)

/-- The 64 SHA-256 round constants. -/
def sha256K : List Nat :=
  [1116352408, 1899447441, 3049323471, 3921009573, 961987163, 1508970993,
   2453635748, 2870763221, 3624381080, 310598401, 607225278, 1426881987,
   1925078388, 2162078206, 2614888103, 3248222580, 3835390401, 4022224774,
   264347078, 604807628, 770255983, 1249150122, 1555081692, 1996064986,
   2554220882, 2821834349, 2952996808, 3210313671, 3336571891, 3584528711,
   113926993, 338241895, 666307205, 773529912, 1294757372, 1396182291,
   1695183700, 1986661051, 2177026350, 2456956037, 2730485921, 2820302411,
   3259730800, 3345764771, 3516065817, 3600352804, 4094571909, 275423344,
   430227734, 506948616, 659060556, 883997877, 958139571, 1322822218,
   1537002063, 1747873779, 1955562222, 2024104815, 2227730452, 2361852424,
   2428436474, 2756734187, 3204031479, 3329325298]

/-- Big-endian 8-byte encoding of a length in bits. -/
def be64 (n : Nat) : Bytes :=
  [n / 2 ^ 56 % 256, n / 2 ^ 48 % 256, n / 2 ^ 40 % 256, n / 2 ^ 32 % 256,
   n / 2 ^ 24 % 256, n / 2 ^ 16 % 256, n / 2 ^ 8 % 256, n % 256]

/-- SHA-256 padding: `0x80`, zeros to 56 mod 64, then the bit length. -/
def sha256pad (msg : Bytes) : Bytes :=
  msg ++ [128] ++ List.replicate ((64 - (msg.length + 9) % 64) % 64) 0 ++
    be64 (8 * msg.length)

/-- Chop a byte list into 64-byte blocks. -/
def toBlocks (l : Bytes) : List Bytes :=
  match l with
  | [] => []
  | b :: rest => ((b :: rest).take 64) :: toBlocks ((b :: rest).drop 64)
termination_by l.length
decreasing_by simp [List.length_drop]; omega

/-- Assemble big-endian 32-bit words from bytes. -/
def blockWords : Bytes → List Nat
  | a :: b :: c :: d :: rest => (((a * 256 + b) * 256 + c) * 256 + d) :: blockWords rest
  | _ => []

/-- Extend the 16 block words to the 64-entry SHA-256 message schedule. -/
def extendW (ws : List Nat) : List Nat :=
  if h : 64 ≤ ws.length then ws
  else
    extendW (ws ++ [w32 (ssig1 (ws.getD (ws.length - 2) 0) + ws.getD (ws.length - 7) 0 +
      ssig0 (ws.getD (ws.length - 15) 0) + ws.getD (ws.length - 16) 0)])
termination_by 64 - ws.length
decreasing_by simp [List.length_append]; omega

/-- The eight 32-bit working registers of SHA-256. -/
structure Hash8 where
  a : Nat
  b : Nat
  c : Nat
  d : Nat
  e : Nat
  f : Nat
  g : Nat
  h : Nat
deriving DecidableEq, Repr

/-- One SHA-256 compression round. -/
def roundStep (k w : Nat) (s : Hash8) : Hash8 :=
  let t1 := w32 (s.h + bsig1 s.e + chFn s.e s.f s.g + k + w)
  let t2 := w32 (bsig0 s.a + majFn s.a s.b s.c)
  ⟨w32 (t1 + t2), s.a, s.b, s.c, w32 (s.d + t1), s.e, s.f, s.g⟩

/-- SHA-256 compression of one 64-byte block. -/
def compressBlock (s : Hash8) (block : Bytes) : Hash8 :=
  let ws := extendW (blockWords block)
  let t := (List.zip sha256K ws).foldl (fun st kw => roundStep kw.1 kw.2 st) s
  ⟨w32 (s.a + t.a), w32 (s.b + t.b), w32 (s.c + t.c), w32 (s.d + t.d),
   w32 (s.e + t.e), w32 (s.f + t.f), w32 (s.g + t.g), w32 (s.h + t.h)⟩

/-- The SHA-256 initialization vector. -/
def sha256init : Hash8 :=
  ⟨1779033703, 3144134277, 1013904242, 2773480762,
   1359893119, 2600822924, 528734635, 1541459225⟩

/-- Lowercase hexadecimal digit for a nibble. -/
def hexChar (n : Nat) : Char :=
  if n < 10 then Char.ofNat (48 + n) else Char.ofNat (87 + n)

/-- The eight lowercase-hex characters of a 32-bit word, most significant
nibble first. -/
def wordHex (x : Nat) : List Char :=
  [hexChar (x / 16 ^ 7 % 16), hexChar (x / 16 ^ 6 % 16), hexChar (x / 16 ^ 5 % 16),
   hexChar (x / 16 ^ 4 % 16), hexChar (x / 16 ^ 3 % 16), hexChar (x / 16 ^ 2 % 16),
   hexChar (x / 16 % 16), hexChar (x % 16)]

/-- SHA-256 lowercase hex digest of a byte list; this is what
`format!("{:x}", hasher.finalize())` produces in `add_statement`. -/
def sha256hex (msg : Bytes) : String :=
  let s := (toBlocks (sha256pad msg)).foldl compressBlock sha256init
  String.mk (wordHex s.a ++ wordHex s.b ++ wordHex s.c ++ wordHex s.d ++
             wordHex s.e ++ wordHex s.f ++ wordHex s.g ++ wordHex s.h)

/-! Migration descriptors and parsing (core/migration.rs). -/

/-- `Migration` from migration.rs: the parsed version, descriptive name and
originating file name. -/
structure Migration where
  version : Nat
  name : String
  file_name : String
deriving DecidableEq, Repr

/-- `MigrationParseError` from migration.rs, with the `ParseIntError` payload
reduced to its kind. -/
inductive MigrationParseError
  | InvalidExtension
  | InvalidFilename
  | InvalidVersion (e : ParseIntErrorKind)
deriving DecidableEq, Repr

/-- `MigrationDiscoveryError` from migration.rs. -/
inductive MigrationDiscoveryError
  | Io (e : IoError)
  | Parse (e : MigrationParseError)
  | DuplicateVersion (v : Nat)
  | InvalidUtf8FileName
deriving DecidableEq, Repr

/-- `Migration::from_file_name`: require a (case-insensitive) `sql`
extension, split the stem at the first underscore into two non-empty halves,
and parse the first as a `u32`. -/
def Migration.from_file_name (file_name : String) : Except MigrationParseError Migration :=
  let is_sql :=
    match rustExtension file_name with
    | some ext => eqIgnoreAsciiCase ext "sql"
    | none => false
  if is_sql then
    match rustFileStem file_name with
    | none => .error .InvalidFilename
    | some stem =>
      match splitOnceChars '_' stem.data with
      | none => .error .InvalidFilename
      | some (version_str, name) =>
        if version_str.isEmpty || name.isEmpty then .error .InvalidFilename
        else
          match parseU32core version_str with
          | .error e => .error (.InvalidVersion e)
          | .ok v => .ok ⟨v, String.mk name, file_name⟩
  else .error .InvalidExtension

/-- The ordering `Migration::from_source` sorts by: version, then name, then
file name (the `cmp().then_with()` chain).  Lean's `String` linear order is
lexicographic by code point, which coincides with Rust's byte order on UTF-8
strings. -/
def migLe (a b : Migration) : Prop :=
  a.version < b.version ∨
    (a.version = b.version ∧
      (a.name < b.name ∨ (a.name = b.name ∧ a.file_name ≤ b.file_name)))

instance : DecidableRel migLe := fun a b => by
  unfold migLe; infer_instance

instance : IsTotal Migration migLe := by
  constructor
  intro a b
  rcases lt_trichotomy a.version b.version with h | h | h
  · exact Or.inl (Or.inl h)
  · rcases lt_trichotomy a.name b.name with h2 | h2 | h2
    · exact Or.inl (Or.inr ⟨h, Or.inl h2⟩)
    · rcases le_total a.file_name b.file_name with h3 | h3
      · exact Or.inl (Or.inr ⟨h, Or.inr ⟨h2, h3⟩⟩)
      · exact Or.inr (Or.inr ⟨h.symm, Or.inr ⟨h2.symm, h3⟩⟩)
    · exact Or.inr (Or.inr ⟨h.symm, Or.inl h2⟩)
  · exact Or.inr (Or.inl h)

instance : IsTrans Migration migLe := by
  constructor
  intro a b c hab hbc
  rcases hab with h1 | ⟨e1, h1⟩
  · rcases hbc with h2 | ⟨e2, h2⟩
    · exact Or.inl (lt_trans h1 h2)
    · exact Or.inl (lt_of_lt_of_le h1 (le_of_eq e2))
  · rcases hbc with h2 | ⟨e2, h2⟩
    · exact Or.inl (lt_of_le_of_lt (le_of_eq e1) h2)
    · refine Or.inr ⟨e1.trans e2, ?_⟩
      rcases h1 with h1 | ⟨f1, h1⟩
      · rcases h2 with h2 | ⟨f2, h2⟩
        · exact Or.inl (lt_trans h1 h2)
        · exact Or.inl (lt_of_lt_of_le h1 (le_of_eq f2))
      · rcases h2 with h2 | ⟨f2, h2⟩
        · exact Or.inl (lt_of_le_of_lt (le_of_eq f1) h2)
        · exact Or.inr ⟨f1.trans f2, le_trans h1 h2⟩

/-- Parse every listed migration file name; the first parse error aborts
(the `?` inside the `for` loop of `Migration::from_source`). -/
def parseAll : List String → Except MigrationParseError (List Migration)
  | [] => .ok []
  | n :: rest =>
    match Migration.from_file_name n with
    | .error e => .error e
    | .ok m =>
      match parseAll rest with
      | .error e => .error e
      | .ok ms => .ok (m :: ms)

/-- The `windows(2)` scan of `Migration::from_source`: the first adjacent
pair with equal versions. -/
def findAdjacentDupVersion : List Migration → Option Nat
  | a :: b :: rest =>
    if a.version = b.version then some a.version
    else findAdjacentDupVersion (b :: rest)
  | _ => none

/-- `Migration::from_source`, over the file-name listing the source returns:
parse all names, sort by (version, name, file name), reject adjacent equal
versions.  Rust's `sort_by` and insertion sort are both stable and the
comparator inspects every field, so they produce the same list. -/
def Migration.from_source (names : List String) :
    Except MigrationDiscoveryError (List Migration) :=
  match parseAll names with
  | .error e => .error (.Parse e)
  | .ok ms =>
    match findAdjacentDupVersion (List.insertionSort migLe ms) with
    | some v => .error (.DuplicateVersion v)
    | none => .ok (List.insertionSort migLe ms)

/-! The migration runner (core/migration.rs lines 258-298). -/

/-- `MigrationContentError` from migration.rs. -/
inductive MigrationContentError
  | Io (e : IoError)
  | MissingEmbeddedFile (file_name : String)
  | NonUtf8EmbeddedFile (file_name : String)
deriving DecidableEq, Repr

/-- `MigrationRunnerError` from migration.rs; the `rusqlite::Error` payload
is reduced to a code. -/
inductive MigrationRunnerError
  | Content (e : MigrationContentError)
  | Sql (code : Nat)
deriving DecidableEq, Repr

/-- The runner-relevant view of a sqlite database: whether the
`schema_migrations` ledger table exists, its `(version, name)` rows, and the
rest of the schema abstracted as `α`. -/
structure LedgerDb (α : Type) where
  hasLedger : Bool
  ledger : List (Nat × String)
  extra : α
deriving DecidableEq, Repr

/-- How the `MigrationsDir` source and the sqlite connection behave during a
run: reading one migration file's SQL text, and executing a SQL batch
against the non-ledger schema.  Both may fail. -/
structure RunEnv (α : Type) where
  readSql : String → Except MigrationContentError String
  execBatch : String → α → Except Nat α

/-- The `for migration in migrations` loop of `MigrationRunner::run`.  The
third component traces the versions whose SQL was read and executed; a
skipped migration leaves no trace.  The ledger INSERT is modelled as
succeeding: the version was just checked absent, so its primary key cannot
collide. -/
def runMigsLoop {α : Type} (env : RunEnv α) :
    List Migration → LedgerDb α → List Nat →
      Option MigrationRunnerError × LedgerDb α × List Nat
  | [], db, trace => (none, db, trace)
  | m :: rest, db, trace =>
    if db.ledger.any (fun p => p.1 == m.version) then runMigsLoop env rest db trace
    else
      match env.readSql m.file_name with
      | .error e => (some (.Content e), db, trace)
      | .ok sql =>
        match env.execBatch sql db.extra with
        | .error code => (some (.Sql code), db, trace)
        | .ok x =>
          runMigsLoop env rest
            ⟨db.hasLedger, db.ledger ++ [(m.version, m.name)], x⟩
            (trace ++ [m.version])

/-- `MigrationRunner::run`: ensure the ledger table exists (`CREATE TABLE IF
NOT EXISTS`, a no-op when present and empty-rowed creation otherwise), then
walk the catalog in order, skipping recorded versions. -/
def MigrationRunner.run {α : Type} (env : RunEnv α) (migrations : List Migration)
    (db : LedgerDb α) : Option MigrationRunnerError × LedgerDb α × List Nat :=
  runMigsLoop env migrations (if db.hasLedger then db else ⟨true, [], db.extra⟩) []

/-! Database rows and CRUD (db.rs, account.rs, statement.rs). -/

/-- An `accounts` row, decoded (`Account` in account.rs).  UUID columns are
stored as canonical hyphenated text; that codec round-trips, so rows carry
`Uuid` values directly. -/
structure Account where
  id : Uuid
  parent_id : Option Uuid
  name : String
  currency : String
  is_closed : Bool
  created_at : String
  note : Option String
deriving DecidableEq, Repr

/-- A `statements` row, decoded (`Statement` in statement.rs). -/
structure Statement where
  id : Uuid
  institution : String
  account_id : Uuid
  period_start : String
  period_end : String
  currency : String
  file_hash : String
  file_size : Int
  imported_at : String
  replaced_by : Option Uuid
deriving DecidableEq, Repr

/-- `AddStatementInput` from statement.rs. -/
structure AddStatementInput where
  institution : String
  account_id : Uuid
  period_start : String
  period_end : String
  currency : String
  replaced_by : Option Uuid
deriving DecidableEq, Repr

/-- The schema-level failure reasons the modelled constraints can raise
(`rusqlite::Error` constraint violations, reduced to their cause). -/
inductive SqlError
  | primaryKeyViolation
  | uniqueViolation
  | foreignKeyViolation
deriving DecidableEq, Repr

/-- `AccountWriteError` from account.rs.  `ReadBack` decode failures cannot
occur in the model because UUID text round-trips. -/
inductive AccountWriteError
  | Sql (e : SqlError)
  | ReadBack
  | NotFound (id : Uuid)
deriving DecidableEq, Repr

/-- `StatementWriteError` from statement.rs. -/
inductive StatementWriteError
  | Sql (e : SqlError)
  | ReadBack
  | NotFound (id : Uuid)
deriving DecidableEq, Repr

/-- The CRUD-relevant database state: both tables in insertion order, plus
the text the engine's `datetime('now')` default currently renders (always a
non-empty `YYYY-MM-DD HH:MM:SS` string). -/
structure DbState where
  accounts : List Account
  statements : List Statement
  now : String
deriving DecidableEq, Repr

/-- `SELECT ... FROM accounts WHERE id = ?1` (db.rs `get_account_by_id`). -/
def DbState.get_account_by_id (db : DbState) (id : Uuid) : Option Account :=
  db.accounts.find? (fun a => a.id == id)

/-- `SELECT ... FROM statements WHERE id = ?1` (db.rs `get_statement_by_id`). -/
def DbState.get_statement_by_id (db : DbState) (id : Uuid) : Option Statement :=
  db.statements.find? (fun s => s.id == id)

/-- `Db::create_account` (db.rs lines 110-128).  Modelled from the spec for
the schema half: the `accounts` table (in embedded migration files absent
from the sources) has primary key `id`, uniqueness on `(parent_id, name)`,
and `created_at` defaulting to the current time; the INSERT binds
`is_closed = 0`.  Returns the freshly read-back row. -/
def DbState.create_account (db : DbState) (id : Uuid) (parent_id : Option Uuid)
    (name currency : String) (note : Option String) :
    Except AccountWriteError Account × DbState :=
  if (db.get_account_by_id id).isSome then (.error (.Sql .primaryKeyViolation), db)
  else if db.accounts.any (fun a => a.parent_id == parent_id && a.name == name) then
    (.error (.Sql .uniqueViolation), db)
  else
    let row : Account := ⟨id, parent_id, name, currency, false, db.now, note⟩
    let db1 : DbState := { db with accounts := db.accounts ++ [row] }
    match db1.get_account_by_id id with
    | some a => (.ok a, db1)
    | none => (.error (.NotFound id), db1)

/-- `Db::rename_account` (db.rs lines 130-139): `UPDATE accounts SET name
WHERE id`; zero affected rows reports `NotFound` (and nothing changes),
otherwise the read-back row is returned. -/
def DbState.rename_account (db : DbState) (id : Uuid) (new_name : String) :
    Except AccountWriteError Account × DbState :=
  if db.accounts.any (fun a => a.id == id) then
    let db1 : DbState :=
      { db with accounts :=
          db.accounts.map (fun a => if a.id == id then { a with name := new_name } else a) }
    match db1.get_account_by_id id with
    | some a => (.ok a, db1)
    | none => (.error (.NotFound id), db1)
  else (.error (.NotFound id), db)

/-- `Db::close_account` (db.rs lines 141-150): `UPDATE accounts SET
is_closed = 1 WHERE id`; zero affected rows reports `NotFound`. -/
def DbState.close_account (db : DbState) (id : Uuid) :
    Except AccountWriteError Account × DbState :=
  if db.accounts.any (fun a => a.id == id) then
    let db1 : DbState :=
      { db with accounts :=
          db.accounts.map (fun a => if a.id == id then { a with is_closed := true } else a) }
    match db1.get_account_by_id id with
    | some a => (.ok a, db1)
    | none => (.error (.NotFound id), db1)
  else (.error (.NotFound id), db)

/-- Sqlite `ORDER BY` on a nullable UUID text column, ascending: NULL sorts
first, then binary text order, which on canonical UUID text is the numeric
order of the value. -/
def optUuidLt : Option Uuid → Option Uuid → Prop
  | none, none => False
  | none, some _ => True
  | some _, none => False
  | some x, some y => x.val < y.val

instance : ∀ a b, Decidable (optUuidLt a b) := fun a b =>
  match a, b with
  | none, none => isFalse (fun h => h)
  | none, some _ => isTrue trivial
  | some _, none => isFalse (fun h => h)
  | some x, some y => inferInstanceAs (Decidable (x.val < y.val))

/-- The `ORDER BY parent_id, name, id` ordering of `list_accounts`. -/
def accountLe (a b : Account) : Prop :=
  optUuidLt a.parent_id b.parent_id ∨
    (a.parent_id = b.parent_id ∧
      (a.name < b.name ∨ (a.name = b.name ∧ a.id.val ≤ b.id.val)))

instance : DecidableRel accountLe := fun a b => by unfold accountLe; infer_instance

/-- `Db::list_accounts` (db.rs lines 98-108): every row, ordered by
`(parent_id, name, id)`. -/
def DbState.list_accounts (db : DbState) : List Account :=
  List.insertionSort accountLe db.accounts

/-- `Db::create_statement` (db.rs lines 164-207).  Modelled from the spec
for the schema half: the `statements` table has primary key `id`, a foreign
key `account_id` into `accounts` whose violation fails the insert, a
nullable self-referencing `replaced_by`, and `imported_at` defaulting to the
current time.  Returns the freshly read-back row. -/
def DbState.create_statement (db : DbState) (id : Uuid) (institution : String)
    (account_id : Uuid) (period_start period_end currency file_hash : String)
    (file_size : Int) (replaced_by : Option Uuid) :
    Except StatementWriteError Statement × DbState :=
  if (db.get_statement_by_id id).isSome then (.error (.Sql .primaryKeyViolation), db)
  else if (db.get_account_by_id account_id).isNone then
    (.error (.Sql .foreignKeyViolation), db)
  else if (match replaced_by with
           | some r => (db.get_statement_by_id r).isNone
           | none => false) then
    (.error (.Sql .foreignKeyViolation), db)
  else
    let row : Statement := ⟨id, institution, account_id, period_start, period_end,
      currency, file_hash, file_size, db.now, replaced_by⟩
    let db1 : DbState := { db with statements := db.statements ++ [row] }
    match db1.get_statement_by_id id with
    | some st => (.ok st, db1)
    | none => (.error (.NotFound id), db1)

/-! The user-data layer (core/user_data.rs). -/

/-- A file inside the managed `statements/` directory: name and content. -/
structure Entry where
  name : String
  content : Bytes
deriving DecidableEq, Repr

/-- `UserDataManager` (user_data.rs): the resolved data directory (the db
path is derived from it). -/
structure UserDataManager where
  data_dir : String
deriving DecidableEq, Repr

/-- `UserDataManager::statements_dir`. -/
def UserDataManager.statements_dir (m : UserDataManager) : String :=
  m.data_dir ++ "/statements"

/-- `Path::join` for the straight-line joins the code performs. -/
def joinPath (dir file : String) : String := dir ++ "/" ++ file

/-- The filesystem-and-database state one `UserDataManager` call sees:
whether the data directory, the statements directory and the sqlite file
exist, the files inside `statements/` in enumeration order, and the
database tables. -/
structure SysState where
  dataDirExists : Bool
  stmtsDirExists : Bool
  dbFileExists : Bool
  entries : List Entry
  db : DbState
deriving DecidableEq, Repr

/-- Create-or-overwrite a file (covers `File::create` and the overwriting
effect of a POSIX `rename` onto an existing name). -/
def putEntry (l : List Entry) (name : String) (content : Bytes) : List Entry :=
  if l.any (fun e => e.name == name) then
    l.map (fun e => if e.name == name then ⟨name, content⟩ else e)
  else l ++ [⟨name, content⟩]

/-- `std::fs::remove_file` on an entry of the statements directory. -/
def removeEntry (l : List Entry) (name : String) : List Entry :=
  l.filter (fun e => !(e.name == name))

/-- The stem comparison inside `find_statement_file_path`:
`path.file_stem().and_then(to_str).map(|s| s == file_hash).unwrap_or(false)`. -/
def entryStemMatches (file_hash : String) (name : String) : Bool :=
  match rustFileStem name with
  | some s => s == file_hash
  | none => false

/-- `UserDataManager::find_statement_file_path` (user_data.rs lines
175-197): first probe the exact extensionless digest path with `exists()`;
then enumerate the directory — `read_dir(..).ok()?` turns an enumeration
I/O failure into `None` — and return the first file whose stem equals the
digest.  `listing` is the directory content in enumeration order (every
entry is a file), `readDirFault` injects the swallowed `read_dir` failure. -/
def findStatementFilePath (dir : String) (listing : List String)
    (readDirFault : Bool) (file_hash : String) : Option String :=
  if listing.contains file_hash then some (joinPath dir file_hash)
  else if readDirFault then none
  else
    match listing.find? (entryStemMatches file_hash) with
    | some name => some (joinPath dir name)
    | none => none

/-- `DbError` from db.rs, payloads reduced to codes (nothing inspects
them). -/
inductive DbError
  | Open (code : Nat)
  | DiscoverMigrations (code : Nat)
  | RunMigrations (code : Nat)
deriving DecidableEq, Repr

/-- `UserDataError` from user_data.rs. -/
inductive UserDataError
  | MissingHomeDir
  | CreateDataDir (e : IoError)
  | DeleteDatabase (e : IoError)
  | OpenDb (e : DbError)
deriving DecidableEq, Repr

/-- `AddStatementError` from statement.rs. -/
inductive AddStatementError
  | OpenSource (e : IoError)
  | CreateTempFile (e : IoError)
  | ReadSource (e : IoError)
  | WriteTempFile (e : IoError)
  | TempFileMetadata (e : IoError)
  | FileTooLarge (size : Nat)
  | DuplicateFileHash (hash : String) (path : String)
  | RenameToFinal (e : IoError)
  | OpenDb (e : DbError)
  | PrepareUserData (e : UserDataError)
  | InsertStatement (e : StatementWriteError)
  | InsertStatementCleanupFailed (insert_error : StatementWriteError)
      (cleanup_error : IoError) (path : String)
deriving DecidableEq, Repr

/-- Outcomes of the fallible operating-system and engine calls one
`add_statement` invocation performs, in program order.  `tempToken` is the
rendering of the fresh `Uuid::new_v4` used in the temp-file name (hyphenated
lowercase hex, so it contains neither `.` nor `/`); `statementId` is the
fresh row id. -/
structure AddEnv where
  openDbFault : Option UserDataError
  sourceResult : Except IoError Bytes
  createTempFault : Option IoError
  readFault : Option IoError
  writeFault : Option IoError
  metadataFault : Option IoError
  readDirFault : Bool
  renameFault : Option IoError
  removeFinalFault : Option IoError
  tempToken : String
  statementId : Uuid
deriving Repr

/-- What `Uuid::new_v4().to_string()` guarantees about the temp token:
hyphenated lowercase hex contains neither `.` nor `/`. -/
def tempTokenOk (t : String) : Prop := '.' ∉ t.data ∧ '/' ∉ t.data

/-- `UserDataManager::statement_file_path_for_source` (user_data.rs lines
166-173), reduced to the file name inside the statements directory: digest
dot extension when the source has a non-empty one, else the bare digest. -/
def statementFileNameForSource (file_hash : String) (source_path : String) : String :=
  match rustExtension source_path with
  | some ext => if ext ≠ "" then file_hash ++ "." ++ ext else file_hash
  | none => file_hash

/-- `UserDataManager::add_statement` (user_data.rs lines 66-139).  Faults
are consulted in the order the Rust code performs the calls.  `open_db`
creates the data directory, the statements directory and the migrated
sqlite file if absent (its fault is modelled before those creations); the
streaming copy is modelled at operation granularity (a read or write fault
aborts before the temp file receives the bytes).  On the duplicate path the
temp-file removal discards its result (`let _ = remove_file`); the file
exists in the model, so the removal succeeds. -/
def UserDataManager.add_statement (m : UserDataManager) (source_path : String)
    (input : AddStatementInput) (env : AddEnv) (s : SysState) :
    Except AddStatementError Statement × SysState :=
  match env.openDbFault with
  | some e => (.error (.PrepareUserData e), s)
  | none =>
    let s1 : SysState :=
      { s with dataDirExists := true, stmtsDirExists := true, dbFileExists := true }
    match env.sourceResult with
    | .error e => (.error (.OpenSource e), s1)
    | .ok bytes =>
      let tempName := ".tmp-statement-" ++ env.tempToken
      match env.createTempFault with
      | some e => (.error (.CreateTempFile e), s1)
      | none =>
        let s2 : SysState := { s1 with entries := putEntry s1.entries tempName [] }
        match env.readFault with
        | some e => (.error (.ReadSource e), s2)
        | none =>
          match env.writeFault with
          | some e => (.error (.WriteTempFile e), s2)
          | none =>
            let s3 : SysState := { s2 with entries := putEntry s2.entries tempName bytes }
            match env.metadataFault with
            | some e => (.error (.TempFileMetadata e), s3)
            | none =>
              if 9223372036854775808 ≤ bytes.length then
                (.error (.FileTooLarge bytes.length), s3)
              else
                let file_hash := sha256hex bytes
                let final_name := statementFileNameForSource file_hash source_path
                match findStatementFilePath m.statements_dir (s3.entries.map Entry.name)
                    env.readDirFault file_hash with
                | some existing_path =>
                  (.error (.DuplicateFileHash file_hash existing_path),
                   { s3 with entries := removeEntry s3.entries tempName })
                | none =>
                  match env.renameFault with
                  | some e => (.error (.RenameToFinal e), s3)
                  | none =>
                    let s4 : SysState :=
                      { s3 with entries :=
                          putEntry (removeEntry s3.entries tempName) final_name bytes }
                    match s4.db.create_statement env.statementId input.institution
                        input.account_id input.period_start input.period_end
                        input.currency file_hash (Int.ofNat bytes.length)
                        input.replaced_by with
                    | (.ok st, db1) => (.ok st, { s4 with db := db1 })
                    | (.error ie, _) =>
                      match env.removeFinalFault with
                      | none =>
                        (.error (.InsertStatement ie),
                         { s4 with entries := removeEntry s4.entries final_name })
                      | some ce =>
                        (.error (.InsertStatementCleanupFailed ie ce
                          (joinPath m.statements_dir final_name)), s4)

/-- The spec's reading of "recognized SQL suffix, matched case-insensitively":
the file name, ASCII-lowercased, ends in `.sql` with something before the
dot. -/
def specSqlSuffix (name : String) : Prop :=
  ∃ f pre, rustFileName name = some f ∧
    f.data.map asciiLower = pre ++ '.' :: ['s', 'q', 'l'] ∧ pre ≠ []

/-- The spec's reading of "the stem splits on the first underscore into two
non-empty parts". -/
def specShapeSplit (name : String) : Prop :=
  ∃ st vpart npart, rustFileStem name = some st ∧
    st.data = vpart ++ '_' :: npart ∧ '_' ∉ vpart ∧ vpart ≠ [] ∧ npart ≠ []

/-- The spec's reading of "parses as an unsigned 32-bit integer (leading
zeros accepted)": an optional `+` sign, then decimal digits denoting `v`
below `2^32`. -/
def specU32Numeral (cs : List Char) (v : Nat) : Prop :=
  ∃ sgn digits, cs = sgn ++ digits ∧ (sgn = [] ∨ sgn = ['+']) ∧ digits ≠ [] ∧
    (∀ c ∈ digits, c.isDigit = true) ∧ digitsToNat digits = v ∧ v < 4294967296

/-! Generic list helpers. -/

theorem find?_append_of_none {α : Type} {l : List α} {p : α → Bool} {x : α}
    (h : l.find? p = none) (hx : p x = true) :
    (l ++ [x]).find? p = some x := by
  rw [List.find?_append, h]
  simp [List.find?, hx]

theorem names_fresh_beq {l : List Entry} {name : String} (h : name ∉ l.map Entry.name) :
    ∀ e ∈ l, (e.name == name) = false := by
  intro e he
  rw [beq_eq_false_iff_ne]
  intro hq
  exact h (hq ▸ List.mem_map_of_mem Entry.name he)

theorem putEntry_fresh {l : List Entry} {name : String} {content : Bytes}
    (h : ∀ e ∈ l, (e.name == name) = false) :
    putEntry l name content = l ++ [⟨name, content⟩] := by
  unfold putEntry
  have hany : l.any (fun e => e.name == name) = false := by
    rw [List.any_eq_false]; intro e he; simp [h e he]
  simp [hany]

theorem putEntry_overwrite_last {l : List Entry} {name : String} {b b' : Bytes}
    (h : ∀ e ∈ l, (e.name == name) = false) :
    putEntry (l ++ [⟨name, b⟩]) name b' = l ++ [⟨name, b'⟩] := by
  unfold putEntry
  have hany : (l ++ [(⟨name, b⟩ : Entry)]).any (fun e => e.name == name) = true := by
    simp [List.any_append]
  have hmap : l.map (fun e => if e.name == name then (⟨name, b'⟩ : Entry) else e) = l := by
    calc l.map (fun e => if e.name == name then (⟨name, b'⟩ : Entry) else e)
        = l.map id := List.map_congr_left (fun e he => by simp [h e he])
      _ = l := List.map_id l
  rw [if_pos hany, List.map_append, hmap]
  simp

theorem removeEntry_fresh {l : List Entry} {name : String}
    (h : ∀ e ∈ l, (e.name == name) = false) :
    removeEntry l name = l := by
  unfold removeEntry
  rw [List.filter_eq_self.mpr]
  intro e he; simp [h e he]

theorem removeEntry_append_last {l : List Entry} {name : String} {b : Bytes}
    (h : ∀ e ∈ l, (e.name == name) = false) :
    removeEntry (l ++ [⟨name, b⟩]) name = l := by
  unfold removeEntry
  rw [List.filter_append]
  have h2 : l.filter (fun e => !(e.name == name)) = l := by
    rw [List.filter_eq_self.mpr]; intro e he; simp [h e he]
  simp [h2]

/-! Runner lemmas. -/

theorem runMigsLoop_success {α : Type} (env : RunEnv α) (migs : List Migration) :
    ∀ (db db1 : LedgerDb α) (tr tr1 : List Nat),
      runMigsLoop env migs db tr = (none, db1, tr1) →
      (∀ p ∈ db.ledger, p ∈ db1.ledger) ∧
      (∀ mg ∈ migs, ∃ p ∈ db1.ledger, p.1 = mg.version) ∧
      db1.hasLedger = db.hasLedger := by
  induction migs with
  | nil =>
    intro db db1 tr tr1 h
    simp only [runMigsLoop, Prod.mk.injEq] at h
    obtain ⟨-, h2, -⟩ := h
    subst h2
    exact ⟨fun p hp => hp, by simp, rfl⟩
  | cons m rest ih =>
    intro db db1 tr tr1 h
    simp only [runMigsLoop] at h
    by_cases hany : db.ledger.any (fun p => p.1 == m.version) = true
    · rw [if_pos hany] at h
      obtain ⟨ha, hb, hc⟩ := ih db db1 tr tr1 h
      refine ⟨ha, ?_, hc⟩
      intro mg hmg
      rcases List.mem_cons.mp hmg with rfl | hmg
      · obtain ⟨p, hp, hpv⟩ := List.any_eq_true.mp hany
        exact ⟨p, ha p hp, by simpa using hpv⟩
      · exact hb mg hmg
    · rw [if_neg hany] at h
      split at h
      · simp at h
      · split at h
        · simp at h
        · obtain ⟨ha, hb, hc⟩ := ih _ db1 _ tr1 h
          refine ⟨fun p hp => ha p (by simp [hp]), ?_, by simpa using hc⟩
          intro mg hmg
          rcases List.mem_cons.mp hmg with rfl | hmg
          · exact ⟨(mg.version, mg.name), ha _ (by simp), rfl⟩
          · exact hb mg hmg

theorem runMigsLoop_skips_recorded {α : Type} (env : RunEnv α) (migs : List Migration) :
    ∀ (db : LedgerDb α) (tr : List Nat),
      (∀ mg ∈ migs, ∃ p ∈ db.ledger, p.1 = mg.version) →
      runMigsLoop env migs db tr = (none, db, tr) := by
  induction migs with
  | nil => intro db tr _; simp [runMigsLoop]
  | cons m rest ih =>
    intro db tr h
    have hany : db.ledger.any (fun p => p.1 == m.version) = true := by
      obtain ⟨p, hp, hv⟩ := h m (List.mem_cons_self m rest)
      exact List.any_eq_true.mpr ⟨p, hp, by simp [hv]⟩
    simp only [runMigsLoop, hany, if_true]
    exact ih db tr (fun mg hmg => h mg (List.mem_cons_of_mem _ hmg))

/-- C3: `MigrationRunner::run` skips every migration whose version is already
recorded in the ledger without re-reading content or re-executing SQL, so
after one successful run of a catalog, running the same catalog again on the
resulting database is a no-op: it does not error, leaves the database
(including the applied count) unchanged, and its read/execute trace is
empty. -/
theorem migration_run_idempotent {α : Type} (env : RunEnv α) (migs : List Migration)
    (db db1 : LedgerDb α) (tr : List Nat)
    (h : MigrationRunner.run env migs db = (none, db1, tr)) :
    MigrationRunner.run env migs db1 = (none, db1, []) := by
  unfold MigrationRunner.run at h ⊢
  obtain ⟨hmono, hall, hledg⟩ := runMigsLoop_success env migs _ db1 [] tr h
  have h1 : db1.hasLedger = true := by
    rw [hledg]
    by_cases hdb : db.hasLedger = true
    · simp [hdb]
    · simp [hdb]
  simp only [h1, if_true]
  exact runMigsLoop_skips_recorded env migs db1 [] hall

theorem migration_run_idempotent_witness :
    MigrationRunner.run (⟨fun _ => .ok "", fun _ n => .ok n⟩ : RunEnv Nat)
      [⟨1, "a", "0001_a.sql"⟩] ⟨true, [(1, "a")], 0⟩ =
      (none, ⟨true, [(1, "a")], 0⟩, []) :=
  migration_run_idempotent _ _ ⟨false, [], 0⟩ _ [1] rfl

/-! Account CRUD lemmas. -/

theorem find?_cons_pos {α : Type} (p : α → Bool) (a : α) (l : List α)
    (h : p a = true) : (a :: l).find? p = some a :=
  List.find?_cons_of_pos l h

theorem find?_cons_neg {α : Type} (p : α → Bool) (a : α) (l : List α)
    (h : ¬ p a = true) : (a :: l).find? p = l.find? p :=
  List.find?_cons_of_neg l h

theorem find?_id_map_update (l : List Account) (id : Uuid) (f : Account → Account)
    (hf : ∀ a, (f a).id = a.id) :
    (l.map (fun a => if a.id == id then f a else a)).find? (fun a => a.id == id)
      = (l.find? (fun a => a.id == id)).map f := by
  induction l with
  | nil => rfl
  | cons a t ih =>
    by_cases ha : (a.id == id) = true
    · rw [List.map_cons, if_pos ha,
        find?_cons_pos (fun x : Account => x.id == id) _ _ (show ((f a).id == id) = true by rw [hf]; exact ha),
        find?_cons_pos (fun x : Account => x.id == id) _ _ ha]
      rfl
    · rw [List.map_cons, if_neg ha,
        find?_cons_neg (fun x : Account => x.id == id) _ _ (by simpa using ha),
        find?_cons_neg (fun x : Account => x.id == id) _ _ (by simpa using ha)]
      exact ih

/-- C6: a successful `create_account` call inserts the row with `is_closed =
false` and returns the freshly read-back row whose id, parent id, name,
currency and note equal the inputs and whose `created_at` is the
engine-assigned timestamp (non-empty whenever the engine clock string is);
a subsequent `list_accounts` returns that row. -/
theorem create_account_spec (db : DbState) (id : Uuid) (parent_id : Option Uuid)
    (name currency : String) (note : Option String) (a : Account) (db1 : DbState)
    (hnow : db.now ≠ "")
    (h : db.create_account id parent_id name currency note = (.ok a, db1)) :
    a.id = id ∧ a.parent_id = parent_id ∧ a.name = name ∧ a.currency = currency ∧
      a.note = note ∧ a.is_closed = false ∧ a.created_at ≠ "" ∧
      a ∈ db1.list_accounts := by
  unfold DbState.create_account at h
  by_cases hpk : (db.get_account_by_id id).isSome = true
  · rw [if_pos hpk] at h
    simp at h
  · rw [if_neg hpk] at h
    by_cases huniq :
        (db.accounts.any fun x => x.parent_id == parent_id && x.name == name) = true
    · rw [if_pos huniq] at h
      simp at h
    · rw [if_neg huniq] at h
      have hnone : db.accounts.find? (fun x => x.id == id) = none := by
        cases ho : db.accounts.find? (fun x => x.id == id) with
        | none => rfl
        | some x =>
          rw [DbState.get_account_by_id, ho] at hpk
          simp at hpk
      have hfind :
          ((db.accounts ++ [(⟨id, parent_id, name, currency, false, db.now, note⟩ :
            Account)]).find? fun x => x.id == id) =
            some ⟨id, parent_id, name, currency, false, db.now, note⟩ :=
        find?_append_of_none hnone (by simp)
      simp only [DbState.get_account_by_id, hfind] at h
      obtain ⟨ha, hdb⟩ := by
        simpa [Prod.ext_iff] using h
      subst hdb
      refine ⟨by rw [← ha], by rw [← ha], by rw [← ha], by rw [← ha], by rw [← ha],
        by rw [← ha], by rw [← ha]; exact hnow, ?_⟩
      rw [DbState.list_accounts]
      simp [← ha]

theorem create_account_spec_witness :
    (⟨⟨1⟩, none, "cash", "USD", false, "NOW", some "w"⟩ : Account) ∈
      (⟨[⟨⟨1⟩, none, "cash", "USD", false, "NOW", some "w"⟩], [], "NOW"⟩ :
        DbState).list_accounts :=
  (create_account_spec ⟨[], [], "NOW"⟩ ⟨1⟩ none "cash" "USD" (some "w") _ _
    (by decide) rfl).2.2.2.2.2.2.2

/-- C7: `rename_account` and `close_account` report a not-found error and
leave the database unchanged when the id matches no row; when the id exists
they return the freshly read-back row, `close_account` with `is_closed` set
to true and `rename_account` with the new name. -/
theorem rename_close_account_spec (db : DbState) (id : Uuid) (new_name : String) :
    (db.get_account_by_id id = none →
      db.rename_account id new_name = (.error (.NotFound id), db) ∧
      db.close_account id = (.error (.NotFound id), db)) ∧
    (∀ a0, db.get_account_by_id id = some a0 →
      (db.rename_account id new_name).1 = .ok { a0 with name := new_name } ∧
      (db.close_account id).1 = .ok { a0 with is_closed := true }) := by
  constructor
  · intro hnone
    rw [DbState.get_account_by_id, List.find?_eq_none] at hnone
    have hany : (db.accounts.any fun a => a.id == id) = false := by
      rw [List.any_eq_false]
      exact hnone
    rw [DbState.rename_account, DbState.close_account]
    rw [if_neg (by simp [hany]), if_neg (by simp [hany])]
    exact ⟨rfl, rfl⟩
  · intro a0 hsome
    rw [DbState.get_account_by_id] at hsome
    have hmem := List.mem_of_find?_eq_some hsome
    have hpa : (a0.id == id) = true := by simpa using List.find?_some hsome
    have hany : (db.accounts.any fun a => a.id == id) = true :=
      List.any_eq_true.mpr ⟨a0, hmem, hpa⟩
    constructor
    · rw [DbState.rename_account, if_pos hany]
      simp only [DbState.get_account_by_id]
      rw [find?_id_map_update db.accounts id (fun a => { a with name := new_name })
          (fun _ => rfl), hsome]
      rfl
    · rw [DbState.close_account, if_pos hany]
      simp only [DbState.get_account_by_id]
      rw [find?_id_map_update db.accounts id (fun a => { a with is_closed := true })
          (fun _ => rfl), hsome]
      rfl

theorem rename_close_account_spec_witness :
    ((⟨[], [], "T"⟩ : DbState).rename_account ⟨9⟩ "n" =
      (.error (.NotFound ⟨9⟩), ⟨[], [], "T"⟩)) ∧
    (((⟨[⟨⟨5⟩, none, "old", "USD", false, "T", none⟩], [], "T"⟩ :
        DbState).close_account ⟨5⟩).1 =
      .ok ⟨⟨5⟩, none, "old", "USD", true, "T", none⟩) :=
  ⟨((rename_close_account_spec ⟨[], [], "T"⟩ ⟨9⟩ "n").1 rfl).1,
   ((rename_close_account_spec ⟨[⟨⟨5⟩, none, "old", "USD", false, "T", none⟩], [], "T"⟩
      ⟨5⟩ "n").2 ⟨⟨5⟩, none, "old", "USD", false, "T", none⟩ rfl).2⟩

/-- C8 (amended): when opening the source file fails, `add_statement`
reports the open failure with no statement-file or database-row mutation —
but the call first runs `open_db`, which may create the data directory, the
statements directory and the migrated database file, so those preparatory
artifacts can be created by the failed call. -/
theorem add_statement_open_source_spec (m : UserDataManager) (source_path : String)
    (input : AddStatementInput) (env : AddEnv) (s : SysState) (e : IoError)
    (h0 : env.openDbFault = none) (h1 : env.sourceResult = .error e) :
    m.add_statement source_path input env s =
      (.error (.OpenSource e),
        { s with dataDirExists := true, stmtsDirExists := true, dbFileExists := true }) := by
  unfold UserDataManager.add_statement
  rw [h0, h1]

theorem add_statement_open_source_spec_witness :
    (⟨"/d"⟩ : UserDataManager).add_statement "/x.pdf" ⟨"i", ⟨1⟩, "a", "b", "USD", none⟩
        ⟨none, .error ⟨3⟩, none, none, none, none, false, none, none, "t", ⟨2⟩⟩
        ⟨false, false, false, [], ⟨[], [], "T"⟩⟩ =
      (.error (.OpenSource ⟨3⟩), ⟨true, true, true, [], ⟨[], [], "T"⟩⟩) :=
  add_statement_open_source_spec _ _ _ _ _ _ rfl rfl

/-- C8 counterexample: on a fresh data directory, a call whose source open
fails still creates the data directory (and statements directory and
database file) through `open_db`, so directory and database state is
created by the failed call, contrary to the claim. -/
theorem add_statement_open_source_counterexample :
    ((⟨"/d"⟩ : UserDataManager).add_statement "/no/such.pdf"
        ⟨"i", ⟨1⟩, "a", "b", "USD", none⟩
        ⟨none, .error ⟨7⟩, none, none, none, none, false, none, none, "t", ⟨2⟩⟩
        ⟨false, false, false, [], ⟨[], [], "T"⟩⟩).1 = .error (.OpenSource ⟨7⟩) ∧
    ((⟨"/d"⟩ : UserDataManager).add_statement "/no/such.pdf"
        ⟨"i", ⟨1⟩, "a", "b", "USD", none⟩
        ⟨none, .error ⟨7⟩, none, none, none, none, false, none, none, "t", ⟨2⟩⟩
        ⟨false, false, false, [], ⟨[], [], "T"⟩⟩).2.dataDirExists = true ∧
    (⟨false, false, false, [], ⟨[], [], "T"⟩⟩ : SysState).dataDirExists = false :=
  ⟨rfl, rfl, rfl⟩

/-! String and path facts. -/

theorem mk_data_eq (s : String) : String.mk s.data = s := rfl

theorem data_append_eq (a b : String) : (a ++ b).data = a.data ++ b.data := rfl

theorem getLast?_mem_of_eq {α : Type} {l : List α} {x : α}
    (h : l.getLast? = some x) : x ∈ l := by
  induction l with
  | nil => simp at h
  | cons a t ih =>
    cases t with
    | nil => simp at h; simp [h]
    | cons b u =>
      rw [List.getLast?_cons_cons] at h
      exact List.mem_cons_of_mem _ (ih h)

theorem dropWhile_append_all {p : Char → Bool} {l m : List Char}
    (h : ∀ x ∈ l, p x = true) : (l ++ m).dropWhile p = m.dropWhile p := by
  induction l with
  | nil => rfl
  | cons c t ih =>
    have hc : p c = true := h c (by simp)
    simp only [List.cons_append, List.dropWhile_cons, hc, if_true]
    exact ih (fun x hx => h x (by simp [hx]))

theorem takeWhile_append_all {p : Char → Bool} {l m : List Char} {c : Char}
    (h : ∀ x ∈ l, p x = true) (hc : p c = false) :
    (l ++ c :: m).takeWhile p = l := by
  induction l with
  | nil => simp [List.takeWhile_cons, hc]
  | cons d t ih =>
    have hd : p d = true := h d (by simp)
    simp only [List.cons_append, List.takeWhile_cons, hd, if_true]
    rw [ih (fun x hx => h x (by simp [hx]))]

theorem splitStemExtL_leading_dot {rest : List Char} (h : '.' ∉ rest) :
    splitStemExtL ('.' :: rest) = ('.' :: rest, none) := by
  unfold splitStemExtL
  have hrev : ('.' :: rest).reverse = rest.reverse ++ ['.'] := by simp
  have hall : ∀ x ∈ rest.reverse, (fun c => decide (c ≠ '.')) x = true := by
    intro x hx
    simp only [List.mem_reverse] at hx
    simp only [decide_eq_true_eq]
    intro he
    exact h (he ▸ hx)
  rw [hrev, dropWhile_append_all hall]
  simp [List.dropWhile_cons]

theorem splitStemExtL_no_dot {f : List Char} (h : '.' ∉ f) :
    splitStemExtL f = (f, none) := by
  unfold splitStemExtL
  have hall : ∀ x ∈ f.reverse, (fun c => decide (c ≠ '.')) x = true := by
    intro x hx
    simp only [List.mem_reverse] at hx
    simp only [decide_eq_true_eq]
    intro he
    exact h (he ▸ hx)
  have hdw : f.reverse.dropWhile (fun c => decide (c ≠ '.')) = [] := by
    have h2 := @dropWhile_append_all (fun c => decide (c ≠ '.')) f.reverse [] hall
    simpa using h2
  rw [hdw]

theorem splitStemExtL_decomp {st ext : List Char} (hdot : '.' ∉ ext) (hst : st ≠ []) :
    splitStemExtL (st ++ '.' :: ext) = (st, some ext) := by
  unfold splitStemExtL
  have hrev : (st ++ '.' :: ext).reverse = ext.reverse ++ '.' :: st.reverse := by
    simp
  have hall : ∀ x ∈ ext.reverse, (fun c => decide (c ≠ '.')) x = true := by
    intro x hx
    simp only [List.mem_reverse] at hx
    simp only [decide_eq_true_eq]
    intro he
    exact hdot (he ▸ hx)
  have hc : (fun c => decide (c ≠ '.')) '.' = false := by simp
  have hdw : ('.' :: st.reverse).dropWhile (fun c => decide (c ≠ '.')) =
      '.' :: st.reverse := by
    simp [List.dropWhile_cons]
  rw [hrev, dropWhile_append_all hall, hdw, takeWhile_append_all hall hc]
  have hne : (st.reverse).isEmpty = false := by
    cases hs : st.reverse with
    | nil => exact absurd (by simpa using congrArg List.reverse hs) hst
    | cons a b => rfl
  simp [hne]

theorem splitStemExtL_inv {f st ext : List Char}
    (h : splitStemExtL f = (st, some ext)) :
    f = st ++ '.' :: ext ∧ '.' ∉ ext ∧ st ≠ [] := by
  unfold splitStemExtL at h
  split at h
  case h_1 stemR heq =>
    by_cases hemp : stemR.isEmpty
    · rw [if_pos hemp] at h
      simp at h
    · rw [if_neg hemp] at h
      have hTD := List.takeWhile_append_dropWhile (fun c => decide (c ≠ '.')) f.reverse
      rw [heq] at hTD
      obtain ⟨h1, h2⟩ : stemR.reverse = st ∧
          (f.reverse.takeWhile (fun c => decide (c ≠ '.'))).reverse = ext := by
        simpa [Prod.ext_iff] using h
      have hf : f = st ++ '.' :: ext := by
        have hf0 : f = (List.takeWhile (fun c => decide (c ≠ '.')) f.reverse ++
            '.' :: stemR).reverse := by
          rw [hTD, List.reverse_reverse]
        rw [hf0, ← h1, ← h2]
        simp [List.reverse_append]
      refine ⟨hf, ?_, ?_⟩
      · intro hmem
        rw [← h2, List.mem_reverse] at hmem
        have := List.mem_takeWhile_imp hmem
        simp at this
      · intro hnil
        rw [← h1] at hnil
        simp at hnil
        exact hemp (by simp [hnil])
  case h_2 heq hne =>
    simp at h

theorem splitSlash_no_slash {cs : List Char} (h : '/' ∉ cs) : splitSlash cs = [cs] := by
  induction cs with
  | nil => rfl
  | cons c rest ih =>
    have hc : ¬ c = '/' := fun he => h (by simp [he])
    have hr : '/' ∉ rest := fun hm => h (List.mem_cons_of_mem _ hm)
    unfold splitSlash
    rw [if_neg hc, ih hr]

theorem splitSlash_mem_no_slash {cs : List Char} :
    ∀ {piece : List Char}, piece ∈ splitSlash cs → '/' ∉ piece := by
  induction cs with
  | nil =>
    intro piece h
    simp [splitSlash] at h
    simp [h]
  | cons c rest ih =>
    intro piece hmem
    unfold splitSlash at hmem
    by_cases hc : c = '/'
    · rw [if_pos hc] at hmem
      rcases List.mem_cons.mp hmem with rfl | hmem
      · simp
      · exact ih hmem
    · rw [if_neg hc] at hmem
      cases hsp : splitSlash rest with
      | nil =>
        rw [hsp] at hmem
        simp at hmem
        subst hmem
        intro hm
        simp at hm
        exact hc hm.symm
      | cons hd tl =>
        rw [hsp] at hmem
        simp only [List.mem_cons] at hmem
        rcases hmem with rfl | hmem
        · intro hsl
          rcases List.mem_cons.mp hsl with he | hsl
          · exact hc he.symm
          · exact ih (hsp ▸ List.mem_cons_self hd tl) hsl
        · exact ih (hsp ▸ List.mem_cons_of_mem hd hmem)

theorem rustFileNameL_plain {cs : List Char} (h : '/' ∉ cs) (h0 : cs ≠ [])
    (h1 : cs ≠ ['.']) (h2 : cs ≠ ['.', '.']) : rustFileNameL cs = some cs := by
  unfold rustFileNameL
  rw [splitSlash_no_slash h]
  have hpred : (decide (cs ≠ [] ∧ cs ≠ ['.'])) = true := by
    simp [h0, h1]
  simp only [List.filter_cons, hpred, if_true, List.filter_nil, List.getLast?_singleton]
  rw [if_neg h2]

theorem rustFileNameL_mem {cs f : List Char} (h : rustFileNameL cs = some f) :
    f ∈ splitSlash cs := by
  unfold rustFileNameL at h
  split at h
  case h_1 => simp at h
  case h_2 c heq =>
    by_cases hdd : c = ['.', '.']
    · rw [if_pos hdd] at h
      simp at h
    · rw [if_neg hdd] at h
      have hcf : c = f := by simpa using h
      subst hcf
      have hmem := getLast?_mem_of_eq heq
      exact (List.mem_filter.mp hmem).1

/-! Hex digest facts. -/

theorem hexChar_ne_dot {n : Nat} (h : n < 16) : hexChar n ≠ '.' := by
  interval_cases n <;> decide

theorem hexChar_ne_slash {n : Nat} (h : n < 16) : hexChar n ≠ '/' := by
  interval_cases n <;> decide

theorem mem_wordHex {x : Nat} {c : Char} (h : c ∈ wordHex x) :
    ∃ n, n < 16 ∧ c = hexChar n := by
  simp only [wordHex, List.mem_cons, List.not_mem_nil, or_false] at h
  rcases h with rfl | rfl | rfl | rfl | rfl | rfl | rfl | rfl <;>
    exact ⟨_, Nat.mod_lt _ (by norm_num), rfl⟩

theorem sha256hex_data_head (msg : Bytes) :
    ∃ n rest, n < 16 ∧ (sha256hex msg).data = hexChar n :: rest :=
  ⟨_, _, Nat.mod_lt _ (by norm_num), rfl⟩

theorem sha256hex_mem_hex (msg : Bytes) :
    ∀ c ∈ (sha256hex msg).data, ∃ n, n < 16 ∧ c = hexChar n := by
  intro c hc
  unfold sha256hex at hc
  simp only [List.mem_append] at hc
  rcases hc with ((((((h | h) | h) | h) | h) | h) | h) | h <;> exact mem_wordHex h

theorem sha256hex_no_dot (msg : Bytes) : '.' ∉ (sha256hex msg).data := by
  intro h
  obtain ⟨n, hn, he⟩ := sha256hex_mem_hex msg '.' h
  exact hexChar_ne_dot hn he.symm

theorem sha256hex_no_slash (msg : Bytes) : '/' ∉ (sha256hex msg).data := by
  intro h
  obtain ⟨n, hn, he⟩ := sha256hex_mem_hex msg '/' h
  exact hexChar_ne_slash hn he.symm

theorem sha256hex_head_ne_dotted (msg : Bytes) {s : String}
    (hs : s.data.head? = some '.') : sha256hex msg ≠ s := by
  intro he
  obtain ⟨n, rest, hn, hd⟩ := sha256hex_data_head msg
  rw [he] at hd
  rw [hd] at hs
  simp only [List.head?_cons, Option.some.injEq] at hs
  exact hexChar_ne_dot hn hs

theorem sha256hex_ne_nil (msg : Bytes) : (sha256hex msg).data ≠ [] := by
  obtain ⟨n, rest, hn, hd⟩ := sha256hex_data_head msg
  simp [hd]

theorem sha256hex_ne_dots (msg : Bytes) :
    (sha256hex msg).data ≠ ['.'] ∧ (sha256hex msg).data ≠ ['.', '.'] := by
  obtain ⟨n, rest, hn, hd⟩ := sha256hex_data_head msg
  constructor <;> rw [hd] <;> intro he <;>
    exact hexChar_ne_dot hn (by injection he)

theorem rustFileStem_sha (msg : Bytes) :
    rustFileStem (sha256hex msg) = some (sha256hex msg) := by
  unfold rustFileStem
  rw [rustFileNameL_plain (sha256hex_no_slash msg) (sha256hex_ne_nil msg)
    (sha256hex_ne_dots msg).1 (sha256hex_ne_dots msg).2]
  simp [splitStemExtL_no_dot (sha256hex_no_dot msg), mk_data_eq]

theorem entryStemMatches_self_sha (msg : Bytes) :
    entryStemMatches (sha256hex msg) (sha256hex msg) = true := by
  unfold entryStemMatches
  rw [rustFileStem_sha]
  simp

/-! Temp-file-name facts. -/

theorem temp_name_data (t : String) :
    ((".tmp-statement-" ++ t : String)).data =
      '.' :: ("tmp-statement-".data ++ t.data) := rfl

theorem temp_name_head (t : String) :
    ((".tmp-statement-" ++ t : String)).data.head? = some '.' := rfl

theorem temp_ne_sha (msg : Bytes) (t : String) :
    (".tmp-statement-" ++ t : String) ≠ sha256hex msg :=
  fun he => sha256hex_head_ne_dotted msg (temp_name_head t) he.symm

theorem rustFileStem_temp {t : String} (ht : tempTokenOk t) :
    rustFileStem (".tmp-statement-" ++ t) = some (".tmp-statement-" ++ t) := by
  obtain ⟨htd, hts⟩ := ht
  have hnodot : '.' ∉ ("tmp-statement-".data ++ t.data) := by
    intro hm
    rcases List.mem_append.mp hm with hm | hm
    · revert hm; decide
    · exact htd hm
  have hnoslash : '/' ∉ ('.' :: ("tmp-statement-".data ++ t.data)) := by
    intro hm
    rcases List.mem_cons.mp hm with hm | hm
    · exact absurd hm (by decide)
    · rcases List.mem_append.mp hm with hm | hm
      · revert hm; decide
      · exact hts hm
  have hform : ('.' :: ("tmp-statement-".data ++ t.data)) =
      '.' :: 't' :: ("mp-statement-".data ++ t.data) := rfl
  have hne1 : ('.' :: ("tmp-statement-".data ++ t.data)) ≠ ['.'] := by
    rw [hform]; intro he; injection he with h1 h2; exact List.noConfusion h2
  have hne2 : ('.' :: ("tmp-statement-".data ++ t.data)) ≠ ['.', '.'] := by
    rw [hform]; intro he
    injection he with h1 h2
    injection h2 with h3 h4
    exact absurd h3 (by decide)
  unfold rustFileStem
  rw [temp_name_data, rustFileNameL_plain hnoslash (by simp) hne1 hne2]
  simp only [Option.map_some']
  rw [splitStemExtL_leading_dot hnodot]
  rfl

theorem entryStemMatches_temp_false (msg : Bytes) {t : String} (ht : tempTokenOk t) :
    entryStemMatches (sha256hex msg) (".tmp-statement-" ++ t) = false := by
  unfold entryStemMatches
  rw [rustFileStem_temp ht]
  rw [beq_eq_false_iff_ne]
  exact temp_ne_sha msg t

/-! Extension and final-name facts. -/

theorem rustExtension_clean {p ext : String} (h : rustExtension p = some ext) :
    '/' ∉ ext.data ∧ '.' ∉ ext.data := by
  unfold rustExtension at h
  cases hf : rustFileNameL p.data with
  | none => rw [hf] at h; simp at h
  | some f =>
    rw [hf] at h
    simp only [Option.some_bind] at h
    cases hse : (splitStemExtL f).2 with
    | none => rw [hse] at h; simp at h
    | some e =>
      rw [hse] at h
      have hext : ext = String.mk e := by simpa using h.symm
      have hpair : splitStemExtL f = ((splitStemExtL f).1, some e) := by
        rw [← hse]
      obtain ⟨hfe, hdot, -⟩ := splitStemExtL_inv hpair
      have hsub : ∀ x ∈ e, x ∈ f := by
        intro x hx
        rw [hfe]
        simp [hx]
      constructor
      · intro hm
        rw [hext] at hm
        exact splitSlash_mem_no_slash (rustFileNameL_mem hf) (hsub '/' hm)
      · intro hm
        rw [hext] at hm
        exact hdot hm

theorem final_name_data (msg : Bytes) (ext : String) :
    ((sha256hex msg ++ "." ++ ext : String)).data =
      (sha256hex msg).data ++ '.' :: ext.data := by
  rw [data_append_eq, data_append_eq]
  simp [List.append_assoc]

theorem rustFileStem_final (msg : Bytes) {ext : String}
    (hsl : '/' ∉ ext.data) (hdot : '.' ∉ ext.data) :
    rustFileStem (sha256hex msg ++ "." ++ ext) = some (sha256hex msg) := by
  unfold rustFileStem
  rw [final_name_data]
  obtain ⟨n, rest, hn, hd⟩ := sha256hex_data_head msg
  have hnoslash : '/' ∉ ((sha256hex msg).data ++ '.' :: ext.data) := by
    intro hm
    rcases List.mem_append.mp hm with hm | hm
    · exact sha256hex_no_slash msg hm
    · rcases List.mem_cons.mp hm with hm | hm
      · exact absurd hm (by decide)
      · exact hsl hm
  have hne0 : ((sha256hex msg).data ++ '.' :: ext.data) ≠ [] := by
    rw [hd]; simp
  have hne1 : ((sha256hex msg).data ++ '.' :: ext.data) ≠ ['.'] := by
    rw [hd]; intro he; injection he with h1 h2; exact hexChar_ne_dot hn h1
  have hne2 : ((sha256hex msg).data ++ '.' :: ext.data) ≠ ['.', '.'] := by
    rw [hd]; intro he; injection he with h1 h2; exact hexChar_ne_dot hn h1
  rw [rustFileNameL_plain hnoslash hne0 hne1 hne2]
  simp only [Option.map_some']
  rw [splitStemExtL_decomp hdot (sha256hex_ne_nil msg)]

theorem entryStemMatches_final_name (msg : Bytes) (source_path : String) :
    entryStemMatches (sha256hex msg)
      (statementFileNameForSource (sha256hex msg) source_path) = true := by
  unfold statementFileNameForSource
  cases hext : rustExtension source_path with
  | none => exact entryStemMatches_self_sha msg
  | some ext =>
    show entryStemMatches (sha256hex msg)
      (if ext ≠ "" then sha256hex msg ++ "." ++ ext else sha256hex msg) = true
    by_cases hne : ext = ""
    · rw [if_neg (by simp [hne])]
      exact entryStemMatches_self_sha msg
    · rw [if_pos hne]
      obtain ⟨hsl, hdot⟩ := rustExtension_clean hext
      unfold entryStemMatches
      rw [rustFileStem_final msg hsl hdot]
      simp

/-! `find_statement_file_path` behaviour during `add_statement` (the listing
it scans is the pre-existing entries followed by the fresh temp file). -/

theorem findStatementFilePath_none_of (dir : String) (names : List String) (rdf : Bool)
    (msg : Bytes) (t : String) (ht : tempTokenOk t)
    (h : ∀ n ∈ names, n ≠ sha256hex msg ∧ entryStemMatches (sha256hex msg) n = false) :
    findStatementFilePath dir (names ++ [".tmp-statement-" ++ t]) rdf (sha256hex msg)
      = none := by
  unfold findStatementFilePath
  have hcont : ((names ++ [".tmp-statement-" ++ t]).contains (sha256hex msg)) = false := by
    rw [List.contains_eq_any_beq, List.any_eq_false]
    intro x hx
    rcases List.mem_append.mp hx with hx | hx
    · intro he
      exact (h x hx).1 (eq_of_beq he).symm
    · simp only [List.mem_singleton] at hx
      subst hx
      intro he
      exact temp_ne_sha msg t (eq_of_beq he).symm
  rw [if_neg (by rw [hcont]; simp)]
  by_cases hr : rdf = true
  · rw [if_pos hr]
  · rw [if_neg hr]
    have hfind : (names ++ [".tmp-statement-" ++ t]).find?
        (entryStemMatches (sha256hex msg)) = none := by
      rw [List.find?_eq_none]
      intro x hx
      rcases List.mem_append.mp hx with hx | hx
      · simp [(h x hx).2]
      · simp only [List.mem_singleton] at hx
        subst hx
        simp [entryStemMatches_temp_false msg ht]
    rw [hfind]

theorem findStatementFilePath_dup_of (dir : String) (names : List String)
    (msg : Bytes) (t : String) (ht : tempTokenOk t)
    (hex2 : ∃ n ∈ names, n = sha256hex msg ∨ entryStemMatches (sha256hex msg) n = true) :
    ∃ n ∈ names, (n = sha256hex msg ∨ entryStemMatches (sha256hex msg) n = true) ∧
      findStatementFilePath dir (names ++ [".tmp-statement-" ++ t]) false (sha256hex msg)
        = some (joinPath dir n) := by
  unfold findStatementFilePath
  by_cases hcont : ((names ++ [".tmp-statement-" ++ t]).contains (sha256hex msg)) = true
  · have hmem : sha256hex msg ∈ names := by
      rw [List.contains_eq_any_beq, List.any_eq_true] at hcont
      obtain ⟨x, hx, hbeq⟩ := hcont
      have hxe : sha256hex msg = x := by simpa using hbeq
      subst hxe
      rcases List.mem_append.mp hx with hx | hx
      · exact hx
      · simp only [List.mem_singleton] at hx
        exact absurd hx.symm (temp_ne_sha msg t)
    refine ⟨sha256hex msg, hmem, Or.inl rfl, ?_⟩
    rw [if_pos hcont]
  · rw [if_neg hcont, if_neg (by simp)]
    obtain ⟨n0, hn0, hmatch⟩ := hex2
    have hfind : ∃ n1, names.find? (entryStemMatches (sha256hex msg)) = some n1 := by
      cases hq : names.find? (entryStemMatches (sha256hex msg)) with
      | some n1 => exact ⟨n1, rfl⟩
      | none =>
        rw [List.find?_eq_none] at hq
        rcases hmatch with rfl | hm
        · exact absurd (entryStemMatches_self_sha msg) (by simpa using hq _ hn0)
        · exact absurd hm (by simpa using hq _ hn0)
    obtain ⟨n1, hn1⟩ := hfind
    rw [List.find?_append, hn1]
    refine ⟨n1, List.mem_of_find?_eq_some hn1, Or.inr (List.find?_some hn1), ?_⟩
    simp

theorem findStatementFilePath_fault_swallows (dir : String) (listing : List String)
    (hash : String) (h : listing.contains hash = false) :
    findStatementFilePath dir listing true hash = none := by
  unfold findStatementFilePath
  rw [if_neg (by rw [h]; simp), if_pos rfl]

/-- C1: when the statements directory already holds a file whose name or stem
equals the digest of the source bytes, `add_statement` removes its temp file,
returns a duplicate-content error carrying the pre-existing file's path, and
leaves the directory contents and the statement rows exactly as they were —
so the stored file for that hash stays unique and no second row appears. -/
theorem add_statement_duplicate_spec (m : UserDataManager) (source_path : String)
    (input : AddStatementInput) (env : AddEnv) (s : SysState) (bytes : Bytes)
    (h0 : env.openDbFault = none) (hsrc : env.sourceResult = .ok bytes)
    (h2 : env.createTempFault = none) (h3 : env.readFault = none)
    (h4 : env.writeFault = none) (h5 : env.metadataFault = none)
    (hsize : bytes.length < 9223372036854775808)
    (hrdf : env.readDirFault = false)
    (htok : tempTokenOk env.tempToken)
    (hfresh : (".tmp-statement-" ++ env.tempToken) ∉ s.entries.map Entry.name)
    (hdup : ∃ n ∈ s.entries.map Entry.name,
      n = sha256hex bytes ∨ entryStemMatches (sha256hex bytes) n = true) :
    ∃ n ∈ s.entries.map Entry.name,
      (n = sha256hex bytes ∨ entryStemMatches (sha256hex bytes) n = true) ∧
      m.add_statement source_path input env s =
        (.error (.DuplicateFileHash (sha256hex bytes) (joinPath m.statements_dir n)),
         { s with dataDirExists := true, stmtsDirExists := true, dbFileExists := true }) := by
  obtain ⟨n, hnmem, hnmatch, hfindeq⟩ :=
    findStatementFilePath_dup_of m.statements_dir (s.entries.map Entry.name) bytes
      env.tempToken htok hdup
  refine ⟨n, hnmem, hnmatch, ?_⟩
  have hfresh' := names_fresh_beq hfresh
  have hsize' : ¬ (9223372036854775808 ≤ bytes.length) := by omega
  have hput1 : putEntry s.entries (".tmp-statement-" ++ env.tempToken) [] =
      s.entries ++ [⟨".tmp-statement-" ++ env.tempToken, []⟩] := putEntry_fresh hfresh'
  have hput2 : putEntry (s.entries ++ [⟨".tmp-statement-" ++ env.tempToken, []⟩])
      (".tmp-statement-" ++ env.tempToken) bytes =
      s.entries ++ [⟨".tmp-statement-" ++ env.tempToken, bytes⟩] :=
    putEntry_overwrite_last hfresh'
  have hmapnames : (s.entries ++ [(⟨".tmp-statement-" ++ env.tempToken, bytes⟩ : Entry)]).map
      Entry.name = s.entries.map Entry.name ++ [".tmp-statement-" ++ env.tempToken] := by
    simp
  have hrem : removeEntry (s.entries ++ [⟨".tmp-statement-" ++ env.tempToken, bytes⟩])
      (".tmp-statement-" ++ env.tempToken) = s.entries := removeEntry_append_last hfresh'
  simp only [UserDataManager.add_statement, h0, hsrc, h2, h3, h4, h5, hrdf, hsize',
    hput1, hput2, hmapnames, hfindeq, hrem, if_false]

theorem create_statement_ok {db : DbState} {id : Uuid} {institution : String}
    {account_id : Uuid} {period_start period_end currency file_hash : String}
    {file_size : Int} {replaced_by : Option Uuid}
    (hpk : db.get_statement_by_id id = none)
    (hfk : (db.get_account_by_id account_id).isSome = true)
    (hrbfk : ∀ r, replaced_by = some r →
      (db.get_statement_by_id r).isSome = true) :
    db.create_statement id institution account_id period_start period_end currency
        file_hash file_size replaced_by =
      (.ok ⟨id, institution, account_id, period_start, period_end, currency,
          file_hash, file_size, db.now, replaced_by⟩,
        { db with statements := db.statements ++
            [⟨id, institution, account_id, period_start, period_end, currency,
              file_hash, file_size, db.now, replaced_by⟩] }) := by
  have hpk' : (db.get_statement_by_id id).isSome = false := by rw [hpk]; rfl
  have hfk' : (db.get_account_by_id account_id).isNone = false := by
    cases hq : db.get_account_by_id account_id with
    | none => rw [hq] at hfk; simp at hfk
    | some a => rfl
  have hfnone : db.statements.find? (fun x => x.id == id) = none := hpk
  cases hrep : replaced_by with
  | none =>
    have hread : ((db.statements ++ [(⟨id, institution, account_id, period_start,
        period_end, currency, file_hash, file_size, db.now, none⟩ : Statement)]).find?
        fun x => x.id == id) = some ⟨id, institution, account_id, period_start,
        period_end, currency, file_hash, file_size, db.now, none⟩ :=
      find?_append_of_none hfnone (by simp)
    simp only [DbState.create_statement, DbState.get_statement_by_id, hfnone, hfk',
      hread, Option.isSome_none, Bool.false_eq_true, if_false]
  | some r =>
    have h6 : (db.statements.find? (fun x => x.id == r)).isSome = true := hrbfk r hrep
    have hrbn : (db.statements.find? (fun x => x.id == r)).isNone = false := by
      cases hq : db.statements.find? (fun x => x.id == r) with
      | none => rw [hq] at h6; simp at h6
      | some st => rfl
    have hread : ((db.statements ++ [(⟨id, institution, account_id, period_start,
        period_end, currency, file_hash, file_size, db.now, some r⟩ : Statement)]).find?
        fun x => x.id == id) = some ⟨id, institution, account_id, period_start,
        period_end, currency, file_hash, file_size, db.now, some r⟩ :=
      find?_append_of_none hfnone (by simp)
    simp only [DbState.create_statement, DbState.get_statement_by_id, hfnone, hfk',
      hrbn, hread, Option.isSome_none, Bool.false_eq_true, if_false]

/-- C9: a fault-free ingest with no pre-existing file for the digest stores
the source bytes under the digest-derived name — digest dot extension when
the source has a non-empty extension, bare digest otherwise — and returns a
statement row whose `file_hash` is the SHA-256 lowercase hex digest of the
source bytes, whose `file_size` is their byte count, and whose `replaced_by`
is the one requested (any referenced predecessor row must exist, as the
foreign key demands). -/
theorem add_statement_success_spec (m : UserDataManager) (source_path : String)
    (input : AddStatementInput) (env : AddEnv) (s : SysState) (bytes : Bytes)
    (h0 : env.openDbFault = none) (hsrc : env.sourceResult = .ok bytes)
    (h2 : env.createTempFault = none) (h3 : env.readFault = none)
    (h4 : env.writeFault = none) (h5 : env.metadataFault = none)
    (hsize : bytes.length < 9223372036854775808)
    (htok : tempTokenOk env.tempToken)
    (hfresh : (".tmp-statement-" ++ env.tempToken) ∉ s.entries.map Entry.name)
    (hnodup : ∀ n ∈ s.entries.map Entry.name,
      n ≠ sha256hex bytes ∧ entryStemMatches (sha256hex bytes) n = false)
    (hren : env.renameFault = none)
    (hpk : s.db.get_statement_by_id env.statementId = none)
    (hfk : (s.db.get_account_by_id input.account_id).isSome = true)
    (hrbfk : ∀ r, input.replaced_by = some r →
      (s.db.get_statement_by_id r).isSome = true) :
    m.add_statement source_path input env s =
      (.ok ⟨env.statementId, input.institution, input.account_id, input.period_start,
          input.period_end, input.currency, sha256hex bytes, Int.ofNat bytes.length,
          s.db.now, input.replaced_by⟩,
        { s with
          dataDirExists := true
          stmtsDirExists := true
          dbFileExists := true
          entries := s.entries ++
            [⟨statementFileNameForSource (sha256hex bytes) source_path, bytes⟩]
          db := { s.db with statements := s.db.statements ++
            [⟨env.statementId, input.institution, input.account_id, input.period_start,
              input.period_end, input.currency, sha256hex bytes, Int.ofNat bytes.length,
              s.db.now, input.replaced_by⟩] } }) ∧
    (∀ ext, rustExtension source_path = some ext → ext ≠ "" →
      statementFileNameForSource (sha256hex bytes) source_path =
        sha256hex bytes ++ "." ++ ext) ∧
    (rustExtension source_path = none →
      statementFileNameForSource (sha256hex bytes) source_path = sha256hex bytes) := by
  have hfresh' := names_fresh_beq hfresh
  have hsize' : ¬ (9223372036854775808 ≤ bytes.length) := by omega
  have hput1 : putEntry s.entries (".tmp-statement-" ++ env.tempToken) [] =
      s.entries ++ [⟨".tmp-statement-" ++ env.tempToken, []⟩] := putEntry_fresh hfresh'
  have hput2 : putEntry (s.entries ++ [⟨".tmp-statement-" ++ env.tempToken, []⟩])
      (".tmp-statement-" ++ env.tempToken) bytes =
      s.entries ++ [⟨".tmp-statement-" ++ env.tempToken, bytes⟩] :=
    putEntry_overwrite_last hfresh'
  have hmapnames : (s.entries ++ [(⟨".tmp-statement-" ++ env.tempToken, bytes⟩ : Entry)]).map
      Entry.name = s.entries.map Entry.name ++ [".tmp-statement-" ++ env.tempToken] := by
    simp
  have hrem : removeEntry (s.entries ++ [⟨".tmp-statement-" ++ env.tempToken, bytes⟩])
      (".tmp-statement-" ++ env.tempToken) = s.entries := removeEntry_append_last hfresh'
  have hfind := findStatementFilePath_none_of m.statements_dir (s.entries.map Entry.name)
    env.readDirFault bytes env.tempToken htok hnodup
  have hfinalfresh : ∀ e ∈ s.entries,
      (e.name == statementFileNameForSource (sha256hex bytes) source_path) = false := by
    intro e he
    rw [beq_eq_false_iff_ne]
    intro heq
    have h2m := (hnodup e.name (List.mem_map_of_mem Entry.name he)).2
    rw [heq, entryStemMatches_final_name] at h2m
    simp at h2m
  have hputfinal : putEntry s.entries
      (statementFileNameForSource (sha256hex bytes) source_path) bytes =
      s.entries ++ [⟨statementFileNameForSource (sha256hex bytes) source_path, bytes⟩] :=
    putEntry_fresh hfinalfresh
  have hins := @create_statement_ok s.db env.statementId input.institution
    input.account_id input.period_start input.period_end input.currency
    (sha256hex bytes) (Int.ofNat bytes.length) input.replaced_by hpk hfk hrbfk
  refine ⟨?_, ?_, ?_⟩
  · simp only [UserDataManager.add_statement, h0, hsrc, h2, h3, h4, h5, hsize',
      hput1, hput2, hmapnames, hfind, hren, hrem, hputfinal, hins, if_false]
  · intro ext hext hne
    simp [statementFileNameForSource, hext, hne]
  · intro hext
    simp [statementFileNameForSource, hext]

theorem append_len_ne {a b : String} (hb : b.data.length ≠ 0) : a ++ b ≠ a := by
  intro he
  have hd := congrArg (fun q : String => q.data.length) he
  simp only [data_append_eq, List.length_append] at hd
  omega

/-- C2: when the database insert fails after the file has been renamed into
its final digest-named path, `add_statement` attempts to delete the placed
file; if the delete succeeds it returns the original insert error with the
directory and database restored, and if the delete also fails it returns a
compound error carrying the insert error, the cleanup error and the orphaned
file's path, leaving the orphan in place. -/
theorem add_statement_insert_failure_spec (m : UserDataManager) (source_path : String)
    (input : AddStatementInput) (env : AddEnv) (s : SysState) (bytes : Bytes)
    (ie : StatementWriteError)
    (h0 : env.openDbFault = none) (hsrc : env.sourceResult = .ok bytes)
    (h2 : env.createTempFault = none) (h3 : env.readFault = none)
    (h4 : env.writeFault = none) (h5 : env.metadataFault = none)
    (hsize : bytes.length < 9223372036854775808)
    (htok : tempTokenOk env.tempToken)
    (hfresh : (".tmp-statement-" ++ env.tempToken) ∉ s.entries.map Entry.name)
    (hnodup : ∀ n ∈ s.entries.map Entry.name,
      n ≠ sha256hex bytes ∧ entryStemMatches (sha256hex bytes) n = false)
    (hren : env.renameFault = none)
    (hins : (s.db.create_statement env.statementId input.institution input.account_id
        input.period_start input.period_end input.currency (sha256hex bytes)
        (Int.ofNat bytes.length) input.replaced_by).1 = .error ie) :
    (env.removeFinalFault = none →
      m.add_statement source_path input env s =
        (.error (.InsertStatement ie),
         { s with dataDirExists := true, stmtsDirExists := true, dbFileExists := true })) ∧
    (∀ ce, env.removeFinalFault = some ce →
      m.add_statement source_path input env s =
        (.error (.InsertStatementCleanupFailed ie ce
            (joinPath m.statements_dir
              (statementFileNameForSource (sha256hex bytes) source_path))),
         { s with
           dataDirExists := true
           stmtsDirExists := true
           dbFileExists := true
           entries := s.entries ++
             [⟨statementFileNameForSource (sha256hex bytes) source_path, bytes⟩] })) := by
  have hfresh' := names_fresh_beq hfresh
  have hsize' : ¬ (9223372036854775808 ≤ bytes.length) := by omega
  have hput1 : putEntry s.entries (".tmp-statement-" ++ env.tempToken) [] =
      s.entries ++ [⟨".tmp-statement-" ++ env.tempToken, []⟩] := putEntry_fresh hfresh'
  have hput2 : putEntry (s.entries ++ [⟨".tmp-statement-" ++ env.tempToken, []⟩])
      (".tmp-statement-" ++ env.tempToken) bytes =
      s.entries ++ [⟨".tmp-statement-" ++ env.tempToken, bytes⟩] :=
    putEntry_overwrite_last hfresh'
  have hmapnames : (s.entries ++ [(⟨".tmp-statement-" ++ env.tempToken, bytes⟩ : Entry)]).map
      Entry.name = s.entries.map Entry.name ++ [".tmp-statement-" ++ env.tempToken] := by
    simp
  have hrem : removeEntry (s.entries ++ [⟨".tmp-statement-" ++ env.tempToken, bytes⟩])
      (".tmp-statement-" ++ env.tempToken) = s.entries := removeEntry_append_last hfresh'
  have hfind := findStatementFilePath_none_of m.statements_dir (s.entries.map Entry.name)
    env.readDirFault bytes env.tempToken htok hnodup
  have hfinalfresh : ∀ e ∈ s.entries,
      (e.name == statementFileNameForSource (sha256hex bytes) source_path) = false := by
    intro e he
    rw [beq_eq_false_iff_ne]
    intro heq
    have h2m := (hnodup e.name (List.mem_map_of_mem Entry.name he)).2
    rw [heq, entryStemMatches_final_name] at h2m
    simp at h2m
  have hputfinal : putEntry s.entries
      (statementFileNameForSource (sha256hex bytes) source_path) bytes =
      s.entries ++ [⟨statementFileNameForSource (sha256hex bytes) source_path, bytes⟩] :=
    putEntry_fresh hfinalfresh
  have hremfinal : removeEntry
      (s.entries ++ [⟨statementFileNameForSource (sha256hex bytes) source_path, bytes⟩])
      (statementFileNameForSource (sha256hex bytes) source_path) = s.entries :=
    removeEntry_append_last hfinalfresh
  obtain ⟨r2, hpair⟩ : ∃ r2, s.db.create_statement env.statementId input.institution
      input.account_id input.period_start input.period_end input.currency
      (sha256hex bytes) (Int.ofNat bytes.length) input.replaced_by = (.error ie, r2) := by
    refine ⟨(s.db.create_statement env.statementId input.institution input.account_id
      input.period_start input.period_end input.currency (sha256hex bytes)
      (Int.ofNat bytes.length) input.replaced_by).2, ?_⟩
    rw [← hins]
  constructor
  · intro hrf
    simp only [UserDataManager.add_statement, h0, hsrc, h2, h3, h4, h5, hsize',
      hput1, hput2, hmapnames, hfind, hren, hrem, hputfinal, hpair, hrf, hremfinal,
      if_false]
  · intro ce hrf
    simp only [UserDataManager.add_statement, h0, hsrc, h2, h3, h4, h5, hsize',
      hput1, hput2, hmapnames, hfind, hren, hrem, hputfinal, hpair, hrf, if_false]

/-- C10: an I/O failure while enumerating the statements directory is
swallowed by `find_statement_file_path`: any listing that does not contain
the exact extensionless digest name reports "no match" under the fault, and
`add_statement` then proceeds — renaming the file and inserting the row —
even though an entry whose stem equals the digest is present, instead of
surfacing the enumeration error. -/
theorem find_statement_read_dir_fault_spec (m : UserDataManager) (source_path : String)
    (input : AddStatementInput) (env : AddEnv) (s : SysState) (bytes : Bytes)
    (h0 : env.openDbFault = none) (hsrc : env.sourceResult = .ok bytes)
    (h2 : env.createTempFault = none) (h3 : env.readFault = none)
    (h4 : env.writeFault = none) (h5 : env.metadataFault = none)
    (hsize : bytes.length < 9223372036854775808)
    (hfresh : (".tmp-statement-" ++ env.tempToken) ∉ s.entries.map Entry.name)
    (hrdf : env.readDirFault = true)
    (hnoexact : ∀ n ∈ s.entries.map Entry.name, n ≠ sha256hex bytes)
    (hstem : ∃ n ∈ s.entries.map Entry.name,
      entryStemMatches (sha256hex bytes) n = true)
    (hren : env.renameFault = none)
    (hpk : s.db.get_statement_by_id env.statementId = none)
    (hfk : (s.db.get_account_by_id input.account_id).isSome = true)
    (hrb : input.replaced_by = none) :
    (∀ dir listing hash, listing.contains hash = false →
      findStatementFilePath dir listing true hash = none) ∧
    (m.add_statement source_path input env s).1 =
      .ok ⟨env.statementId, input.institution, input.account_id, input.period_start,
        input.period_end, input.currency, sha256hex bytes, Int.ofNat bytes.length,
        s.db.now, none⟩ := by
  refine ⟨fun dir listing hash h => findStatementFilePath_fault_swallows dir listing hash h, ?_⟩
  have hfresh' := names_fresh_beq hfresh
  have hsize' : ¬ (9223372036854775808 ≤ bytes.length) := by omega
  have hput1 : putEntry s.entries (".tmp-statement-" ++ env.tempToken) [] =
      s.entries ++ [⟨".tmp-statement-" ++ env.tempToken, []⟩] := putEntry_fresh hfresh'
  have hput2 : putEntry (s.entries ++ [⟨".tmp-statement-" ++ env.tempToken, []⟩])
      (".tmp-statement-" ++ env.tempToken) bytes =
      s.entries ++ [⟨".tmp-statement-" ++ env.tempToken, bytes⟩] :=
    putEntry_overwrite_last hfresh'
  have hmapnames : (s.entries ++ [(⟨".tmp-statement-" ++ env.tempToken, bytes⟩ : Entry)]).map
      Entry.name = s.entries.map Entry.name ++ [".tmp-statement-" ++ env.tempToken] := by
    simp
  have hcont : ((s.entries.map Entry.name ++
      [".tmp-statement-" ++ env.tempToken]).contains (sha256hex bytes)) = false := by
    rw [List.contains_eq_any_beq, List.any_eq_false]
    intro x hx
    rcases List.mem_append.mp hx with hx | hx
    · intro he
      exact (hnoexact x hx) (eq_of_beq he).symm
    · simp only [List.mem_singleton] at hx
      subst hx
      intro he
      exact temp_ne_sha bytes env.tempToken (eq_of_beq he).symm
  have hfind := findStatementFilePath_fault_swallows m.statements_dir
    (s.entries.map Entry.name ++ [".tmp-statement-" ++ env.tempToken])
    (sha256hex bytes) hcont
  have hins := @create_statement_ok s.db env.statementId input.institution
    input.account_id input.period_start input.period_end input.currency
    (sha256hex bytes) (Int.ofNat bytes.length) none hpk hfk
    (fun r h => Option.noConfusion h)
  simp only [UserDataManager.add_statement, h0, hsrc, h2, h3, h4, h5, hsize',
    hput1, hput2, hmapnames, hrdf, hfind, hren, hrb, hins, if_false]

theorem temp_ne_dotless {t s : String} (hs : s.data.head? ≠ some '.') :
    (".tmp-statement-" ++ t : String) ≠ s := by
  intro he
  apply hs
  rw [← he]
  rfl

theorem add_statement_duplicate_spec_witness :
    ∃ n ∈ ([⟨sha256hex [1, 2, 3], [9]⟩] : List Entry).map Entry.name,
      (n = sha256hex [1, 2, 3] ∨ entryStemMatches (sha256hex [1, 2, 3]) n = true) ∧
      (⟨"/d"⟩ : UserDataManager).add_statement "/s.pdf" ⟨"i", ⟨1⟩, "a", "b", "USD", none⟩
          ⟨none, .ok [1, 2, 3], none, none, none, none, false, none, none, "ab", ⟨2⟩⟩
          ⟨true, true, true, [⟨sha256hex [1, 2, 3], [9]⟩], ⟨[], [], "T"⟩⟩ =
        (.error (.DuplicateFileHash (sha256hex [1, 2, 3])
            (joinPath ((⟨"/d"⟩ : UserDataManager).statements_dir) n)),
         ⟨true, true, true, [⟨sha256hex [1, 2, 3], [9]⟩], ⟨[], [], "T"⟩⟩) :=
  add_statement_duplicate_spec ⟨"/d"⟩ "/s.pdf" ⟨"i", ⟨1⟩, "a", "b", "USD", none⟩
    ⟨none, .ok [1, 2, 3], none, none, none, none, false, none, none, "ab", ⟨2⟩⟩
    ⟨true, true, true, [⟨sha256hex [1, 2, 3], [9]⟩], ⟨[], [], "T"⟩⟩ [1, 2, 3]
    rfl rfl rfl rfl rfl rfl (by decide) rfl ⟨by decide, by decide⟩
    (by
      intro hm
      simp only [List.map_cons, List.map_nil, List.mem_singleton] at hm
      exact temp_ne_sha [1, 2, 3] "ab" hm)
    ⟨sha256hex [1, 2, 3], by simp, Or.inl rfl⟩

theorem add_statement_success_spec_witness :
    (⟨"/d"⟩ : UserDataManager).add_statement "/tmp/statement.pdf"
        ⟨"Chase", ⟨1⟩, "2026-01-01", "2026-01-31", "USD", some ⟨3⟩⟩
        ⟨none, .ok [37, 80, 68, 70, 45, 49, 46, 55, 32, 115, 97, 109, 112, 108, 101],
          none, none, none, none, false, none, none, "ab", ⟨2⟩⟩
        ⟨true, true, true, [],
          ⟨[⟨⟨1⟩, none, "checking", "USD", false, "T", none⟩],
            [⟨⟨3⟩, "Chase", ⟨1⟩, "2025-12-01", "2025-12-31", "USD", "h0",
              Int.ofNat 1, "T0", none⟩], "NOW"⟩⟩ =
      (.ok ⟨⟨2⟩, "Chase", ⟨1⟩, "2026-01-01", "2026-01-31", "USD",
          sha256hex [37, 80, 68, 70, 45, 49, 46, 55, 32, 115, 97, 109, 112, 108, 101],
          Int.ofNat 15, "NOW", some ⟨3⟩⟩,
        ⟨true, true, true,
          [⟨sha256hex [37, 80, 68, 70, 45, 49, 46, 55, 32, 115, 97, 109, 112, 108, 101]
              ++ "." ++ "pdf",
            [37, 80, 68, 70, 45, 49, 46, 55, 32, 115, 97, 109, 112, 108, 101]⟩],
          ⟨[⟨⟨1⟩, none, "checking", "USD", false, "T", none⟩],
            [⟨⟨3⟩, "Chase", ⟨1⟩, "2025-12-01", "2025-12-31", "USD", "h0",
              Int.ofNat 1, "T0", none⟩,
             ⟨⟨2⟩, "Chase", ⟨1⟩, "2026-01-01", "2026-01-31", "USD",
              sha256hex [37, 80, 68, 70, 45, 49, 46, 55, 32, 115, 97, 109, 112, 108, 101],
              Int.ofNat 15, "NOW", some ⟨3⟩⟩], "NOW"⟩⟩) :=
  (add_statement_success_spec ⟨"/d"⟩ "/tmp/statement.pdf"
    ⟨"Chase", ⟨1⟩, "2026-01-01", "2026-01-31", "USD", some ⟨3⟩⟩
    ⟨none, .ok [37, 80, 68, 70, 45, 49, 46, 55, 32, 115, 97, 109, 112, 108, 101],
      none, none, none, none, false, none, none, "ab", ⟨2⟩⟩
    ⟨true, true, true, [],
      ⟨[⟨⟨1⟩, none, "checking", "USD", false, "T", none⟩],
        [⟨⟨3⟩, "Chase", ⟨1⟩, "2025-12-01", "2025-12-31", "USD", "h0",
          Int.ofNat 1, "T0", none⟩], "NOW"⟩⟩
    [37, 80, 68, 70, 45, 49, 46, 55, 32, 115, 97, 109, 112, 108, 101]
    rfl rfl rfl rfl rfl rfl (by decide) ⟨by decide, by decide⟩ (by simp) (by simp)
    rfl rfl rfl (fun r h => by cases h; rfl)).1

theorem add_statement_insert_failure_spec_witness :
    (⟨"/d"⟩ : UserDataManager).add_statement "/s.pdf" ⟨"i", ⟨9⟩, "a", "b", "USD", none⟩
        ⟨none, .ok [5], none, none, none, none, false, none, none, "ab", ⟨2⟩⟩
        ⟨true, true, true, [], ⟨[], [], "T"⟩⟩ =
      (.error (.InsertStatement (.Sql .foreignKeyViolation)),
       ⟨true, true, true, [], ⟨[], [], "T"⟩⟩) :=
  (add_statement_insert_failure_spec ⟨"/d"⟩ "/s.pdf" ⟨"i", ⟨9⟩, "a", "b", "USD", none⟩
    ⟨none, .ok [5], none, none, none, none, false, none, none, "ab", ⟨2⟩⟩
    ⟨true, true, true, [], ⟨[], [], "T"⟩⟩ [5] (.Sql .foreignKeyViolation)
    rfl rfl rfl rfl rfl rfl (by decide) ⟨by decide, by decide⟩ (by simp) (by simp)
    rfl rfl).1 rfl

theorem find_statement_read_dir_fault_spec_witness :
    ((⟨"/d"⟩ : UserDataManager).add_statement "/x.pdf" ⟨"i", ⟨1⟩, "a", "b", "USD", none⟩
        ⟨none, .ok [7], none, none, none, none, true, none, none, "ab", ⟨2⟩⟩
        ⟨true, true, true, [⟨sha256hex [7] ++ "." ++ "pdf", [1]⟩],
          ⟨[⟨⟨1⟩, none, "c", "USD", false, "T", none⟩], [], "NOW"⟩⟩).1 =
      .ok ⟨⟨2⟩, "i", ⟨1⟩, "a", "b", "USD", sha256hex [7], Int.ofNat 1, "NOW", none⟩ :=
  (find_statement_read_dir_fault_spec ⟨"/d"⟩ "/x.pdf" ⟨"i", ⟨1⟩, "a", "b", "USD", none⟩
    ⟨none, .ok [7], none, none, none, none, true, none, none, "ab", ⟨2⟩⟩
    ⟨true, true, true, [⟨sha256hex [7] ++ "." ++ "pdf", [1]⟩],
      ⟨[⟨⟨1⟩, none, "c", "USD", false, "T", none⟩], [], "NOW"⟩⟩ [7]
    rfl rfl rfl rfl rfl rfl (by decide)
    (by
      intro hm
      simp only [List.map_cons, List.map_nil, List.mem_singleton] at hm
      refine temp_ne_dotless ?_ hm
      obtain ⟨n, rest, hn, hd⟩ := sha256hex_data_head [7]
      rw [data_append_eq, data_append_eq, hd]
      simp [hexChar_ne_dot hn])
    rfl
    (by
      intro n hn
      simp only [List.map_cons, List.map_nil, List.mem_singleton] at hn
      subst hn
      intro he
      have hd := congrArg (fun q : String => q.data.length) he
      simp only [data_append_eq, List.length_append] at hd
      have e1 : (".".data.length) = 1 := rfl
      have e2 : ("pdf".data.length) = 3 := rfl
      rw [e1, e2] at hd
      omega)
    ⟨sha256hex [7] ++ "." ++ "pdf", by simp, entryStemMatches_final_name [7] "/x.pdf"⟩
    rfl rfl rfl rfl).2

/-! Case-insensitive suffix facts. -/

theorem ofNat_ne_dot_of_range {n : Nat} (h1 : 97 ≤ n) (h2 : n ≤ 122) :
    Char.ofNat n ≠ '.' := by
  interval_cases n <;> decide

theorem asciiLower_eq_dot_iff {c : Char} : asciiLower c = '.' ↔ c = '.' := by
  unfold asciiLower
  by_cases h : 65 ≤ c.toNat ∧ c.toNat ≤ 90
  · rw [if_pos h]
    constructor
    · intro he
      exact absurd he (ofNat_ne_dot_of_range (by omega) (by omega))
    · intro he
      subst he
      exact absurd h.1 (by decide)
  · rw [if_neg h]

theorem eqIgnoreAsciiCase_sql_iff {a : String} :
    eqIgnoreAsciiCase a "sql" = true ↔ a.data.map asciiLower = ['s', 'q', 'l'] := by
  unfold eqIgnoreAsciiCase
  rw [beq_iff_eq]
  have h : ("sql".data).map asciiLower = ['s', 'q', 'l'] := by decide
  rw [h]

theorem map_asciiLower_sql_decomp {f pre : List Char}
    (h : f.map asciiLower = pre ++ '.' :: ['s', 'q', 'l']) (hpre : pre ≠ []) :
    ∃ st e, f = st ++ '.' :: e ∧ st ≠ [] ∧ '.' ∉ e ∧
      e.map asciiLower = ['s', 'q', 'l'] := by
  obtain ⟨st, t, hf, hst, ht⟩ := List.map_eq_append_iff.mp h
  obtain ⟨d, e, hte, hd, he⟩ := List.map_eq_cons_iff.mp ht
  have hdd : d = '.' := asciiLower_eq_dot_iff.mp hd
  subst hdd
  refine ⟨st, e, by rw [hf, hte], ?_, ?_, he⟩
  · intro hnil
    rw [hnil] at hst
    exact hpre hst.symm
  · intro hm
    have : asciiLower '.' ∈ e.map asciiLower := List.mem_map_of_mem asciiLower hm
    rw [he] at this
    have hdot : asciiLower '.' = '.' := by decide
    rw [hdot] at this
    simp at this

/-! `split_once` characterization. -/

theorem splitOnceChars_some_iff {sep : Char} {cs a b : List Char} :
    splitOnceChars sep cs = some (a, b) ↔ cs = a ++ sep :: b ∧ sep ∉ a := by
  induction cs generalizing a b with
  | nil =>
    constructor
    · intro h
      simp [splitOnceChars] at h
    · rintro ⟨h, -⟩
      cases a <;> simp at h
  | cons c rest ih =>
    by_cases hc : c = sep
    · subst hc
      rw [splitOnceChars, if_pos rfl]
      constructor
      · intro h
        obtain ⟨ha, hb⟩ : ([] : List Char) = a ∧ rest = b := by simpa using h
        subst ha
        subst hb
        exact ⟨rfl, by simp⟩
      · rintro ⟨h, hna⟩
        cases a with
        | nil =>
          simp only [List.nil_append, List.cons.injEq] at h
          simp [h.2]
        | cons a0 as =>
          injection h with h1 h2
          exact absurd (by rw [h1]; exact List.mem_cons_self a0 as) hna
    · rw [splitOnceChars, if_neg hc]
      constructor
      · intro h
        rw [Option.map_eq_some'] at h
        obtain ⟨⟨a1, b1⟩, hp, hq⟩ := h
        obtain ⟨ha, hb⟩ : c :: a1 = a ∧ b1 = b := by simpa using hq
        subst ha
        subst hb
        obtain ⟨hr, hna⟩ := ih.mp hp
        refine ⟨by rw [List.cons_append, ← hr], ?_⟩
        intro hm
        rcases List.mem_cons.mp hm with he | hm
        · exact hc he.symm
        · exact hna hm
      · rintro ⟨h, hna⟩
        cases a with
        | nil =>
          injection h with h1 _
          exact absurd h1 hc
        | cons a0 as =>
          injection h with h1 h2
          subst h1
          have hnas : sep ∉ as := fun hm => hna (List.mem_cons_of_mem _ hm)
          rw [ih.mpr ⟨h2, hnas⟩]
          rfl

theorem splitOnceChars_none_iff {sep : Char} {cs : List Char} :
    splitOnceChars sep cs = none ↔ sep ∉ cs := by
  induction cs with
  | nil => simp [splitOnceChars]
  | cons c rest ih =>
    by_cases hc : c = sep
    · subst hc
      rw [splitOnceChars, if_pos rfl]
      simp
    · rw [splitOnceChars, if_neg hc]
      rw [Option.map_eq_none']
      rw [ih]
      constructor
      · intro h hm
        rcases List.mem_cons.mp hm with he | hm
        · exact hc he.symm
        · exact h hm
      · intro h hm
        exact h (List.mem_cons_of_mem _ hm)

/-! `u32` parse characterization. -/

theorem parseU32core_cons_plus (rest : List Char) :
    parseU32core ('+' :: rest) =
      (if rest.isEmpty then .error .InvalidDigit
       else if rest.all Char.isDigit then
         (if digitsToNat rest < 4294967296 then .ok (digitsToNat rest)
          else .error .PosOverflow)
       else .error .InvalidDigit) := rfl

theorem parseU32core_cons {c : Char} (rest : List Char) (hc : ¬ c = '+') :
    parseU32core (c :: rest) =
      (if (c :: rest).isEmpty then .error .InvalidDigit
       else if (c :: rest).all Char.isDigit then
         (if digitsToNat (c :: rest) < 4294967296 then .ok (digitsToNat (c :: rest))
          else .error .PosOverflow)
       else .error .InvalidDigit) := by
  rw [parseU32core]
  simp [hc]

theorem parseU32core_ok_iff {cs : List Char} {v : Nat} :
    parseU32core cs = .ok v ↔ specU32Numeral cs v := by
  cases cs with
  | nil =>
    constructor
    · intro h
      simp [parseU32core] at h
    · rintro ⟨sgn, digits, heq, hsgn, hne, -, -, -⟩
      rcases hsgn with rfl | rfl
      · simp only [List.nil_append] at heq
        exact absurd heq.symm hne
      · simp at heq
  | cons c rest =>
    by_cases hc : c = '+'
    · subst hc
      constructor
      · intro h
        rw [parseU32core_cons_plus] at h
        by_cases hemp : rest.isEmpty
        · rw [if_pos hemp] at h
          simp at h
        · rw [if_neg hemp] at h
          by_cases hall : rest.all Char.isDigit
          · rw [if_pos hall] at h
            by_cases hlt : digitsToNat rest < 4294967296
            · rw [if_pos hlt] at h
              obtain hv : digitsToNat rest = v := by simpa using h
              refine ⟨['+'], rest, rfl, Or.inr rfl, ?_,
                List.all_eq_true.mp hall, hv, hv ▸ hlt⟩
              intro hnil
              rw [hnil] at hemp
              exact hemp rfl
            · rw [if_neg hlt] at h
              simp at h
          · rw [if_neg hall] at h
            simp at h
      · rintro ⟨sgn, digits, heq, hsgn, hne, hdig, hval, hlt⟩
        rcases hsgn with rfl | rfl
        · simp only [List.nil_append] at heq
          subst heq
          have hd := hdig '+' (List.mem_cons_self _ _)
          exact absurd hd (by decide)
        · injection heq with h1 h2
          subst h2
          rw [parseU32core_cons_plus]
          have hemp : ¬ (rest.isEmpty = true) := by
            cases rest with
            | nil => exact absurd rfl hne
            | cons x xs => simp
          rw [if_neg hemp, if_pos (List.all_eq_true.mpr hdig),
            if_pos (by rw [hval]; exact hlt), hval]
    · constructor
      · intro h
        rw [parseU32core_cons rest hc] at h
        by_cases hall : (c :: rest).all Char.isDigit
        · rw [if_neg (by simp), if_pos hall] at h
          by_cases hlt : digitsToNat (c :: rest) < 4294967296
          · rw [if_pos hlt] at h
            obtain hv : digitsToNat (c :: rest) = v := by simpa using h
            exact ⟨[], c :: rest, by simp, Or.inl rfl, by simp,
              List.all_eq_true.mp hall, hv, hv ▸ hlt⟩
          · rw [if_neg hlt] at h
            simp at h
        · rw [if_neg (by simp), if_neg hall] at h
          simp at h
      · rintro ⟨sgn, digits, heq, hsgn, hne, hdig, hval, hlt⟩
        rcases hsgn with rfl | rfl
        · simp only [List.nil_append] at heq
          subst heq
          rw [parseU32core_cons rest hc]
          rw [if_neg (by simp), if_pos (List.all_eq_true.mpr hdig),
            if_pos (by rw [hval]; exact hlt), hval]
        · injection heq with h1 _
          exact absurd h1 hc

/-! Bridging the extension check with the spec's suffix predicate. -/

theorem specSqlSuffix_of_ext {name ext : String}
    (hext : rustExtension name = some ext)
    (hsql : eqIgnoreAsciiCase ext "sql" = true) : specSqlSuffix name := by
  unfold rustExtension at hext
  cases hf : rustFileNameL name.data with
  | none =>
    rw [hf] at hext
    simp at hext
  | some f =>
    rw [hf] at hext
    simp only [Option.some_bind] at hext
    cases hse : (splitStemExtL f).2 with
    | none =>
      rw [hse] at hext
      simp at hext
    | some e =>
      rw [hse] at hext
      have he : ext = String.mk e := by simpa using hext.symm
      have hpair : splitStemExtL f = ((splitStemExtL f).1, some e) := by rw [← hse]
      obtain ⟨hfe, hdot, hstne⟩ := splitStemExtL_inv hpair
      have hesql : e.map asciiLower = ['s', 'q', 'l'] := by
        have := eqIgnoreAsciiCase_sql_iff.mp hsql
        rw [he] at this
        exact this
      refine ⟨String.mk f, ((splitStemExtL f).1).map asciiLower, ?_, ?_, ?_⟩
      · unfold rustFileName
        rw [hf]
        rfl
      · show f.map asciiLower = _
        conv_lhs => rw [hfe]
        rw [List.map_append, List.map_cons, hesql]
        have hdotl : asciiLower '.' = '.' := by decide
        rw [hdotl]
      · intro hnil
        exact hstne (List.map_eq_nil_iff.mp hnil)

theorem not_specSqlSuffix_of_none {name : String}
    (hext : rustExtension name = none) : ¬ specSqlSuffix name := by
  rintro ⟨fStr, pre, hfn, hlow, hpre⟩
  obtain ⟨st, e, hfe, hstne, hdot, hesql⟩ := map_asciiLower_sql_decomp hlow hpre
  unfold rustFileName at hfn
  cases hf : rustFileNameL name.data with
  | none =>
    rw [hf] at hfn
    simp at hfn
  | some f =>
    rw [hf] at hfn
    have hffs : f = fStr.data := by
      obtain he : String.mk f = fStr := by simpa using hfn
      rw [← he]
    have hsp : splitStemExtL f = (st, some e) := by
      rw [hffs, hfe]
      exact splitStemExtL_decomp hdot hstne
    unfold rustExtension at hext
    rw [hf] at hext
    simp only [Option.some_bind, hsp] at hext
    simp at hext

theorem not_specSqlSuffix_of_bad_ext {name ext : String}
    (hext : rustExtension name = some ext)
    (hsql : ¬ (eqIgnoreAsciiCase ext "sql" = true)) : ¬ specSqlSuffix name := by
  rintro ⟨fStr, pre, hfn, hlow, hpre⟩
  obtain ⟨st, e, hfe, hstne, hdot, hesql⟩ := map_asciiLower_sql_decomp hlow hpre
  unfold rustFileName at hfn
  cases hf : rustFileNameL name.data with
  | none =>
    rw [hf] at hfn
    simp at hfn
  | some f =>
    rw [hf] at hfn
    have hffs : f = fStr.data := by
      obtain he : String.mk f = fStr := by simpa using hfn
      rw [← he]
    have hsp : splitStemExtL f = (st, some e) := by
      rw [hffs, hfe]
      exact splitStemExtL_decomp hdot hstne
    unfold rustExtension at hext
    rw [hf] at hext
    simp only [Option.some_bind, hsp] at hext
    have hee : ext = String.mk e := by simpa using hext.symm
    apply hsql
    rw [hee]
    exact eqIgnoreAsciiCase_sql_iff.mpr hesql

/-- C4: `Migration::from_file_name` succeeds exactly when the name has the
recognized `.sql` suffix (matched case-insensitively) and its stem splits on
the first underscore into two non-empty parts whose first part parses as an
unsigned 32-bit integer (leading zeros accepted); every other shape fails with
an error distinguished by kind: wrong suffix (`InvalidExtension`), malformed
name shape (`InvalidFilename`), or non-numeric version (`InvalidVersion`). -/
theorem migration_from_file_name_spec (name : String) :
    ((∃ m, Migration.from_file_name name = .ok m) ↔
      (specSqlSuffix name ∧
        ∃ st vpart npart v, rustFileStem name = some st ∧
          st.data = vpart ++ '_' :: npart ∧ '_' ∉ vpart ∧ vpart ≠ [] ∧
          npart ≠ [] ∧ specU32Numeral vpart v)) ∧
    (∀ m, Migration.from_file_name name = .ok m →
      ∃ st vpart npart, rustFileStem name = some st ∧
        st.data = vpart ++ '_' :: npart ∧ '_' ∉ vpart ∧
        specU32Numeral vpart m.version ∧ m.name = String.mk npart ∧
        m.file_name = name) ∧
    (¬ specSqlSuffix name →
      Migration.from_file_name name = .error .InvalidExtension) ∧
    (specSqlSuffix name → ¬ specShapeSplit name →
      Migration.from_file_name name = .error .InvalidFilename) ∧
    (specSqlSuffix name → specShapeSplit name →
      (∀ m, Migration.from_file_name name ≠ .ok m) →
      ∃ e, Migration.from_file_name name = .error (.InvalidVersion e)) := by
  cases hext : rustExtension name with
  | none =>
    have hres : Migration.from_file_name name = .error .InvalidExtension := by
      simp [Migration.from_file_name, hext]
    have hnospec : ¬ specSqlSuffix name := not_specSqlSuffix_of_none hext
    refine ⟨⟨?_, ?_⟩, ?_, fun _ => hres, fun hs => absurd hs hnospec,
      fun hs => absurd hs hnospec⟩
    · rintro ⟨m, hm⟩
      rw [hres] at hm
      exact Except.noConfusion hm
    · rintro ⟨hs, -⟩
      exact absurd hs hnospec
    · intro m hm
      rw [hres] at hm
      exact Except.noConfusion hm
  | some ext =>
    by_cases hsql : eqIgnoreAsciiCase ext "sql" = true
    · have hspec := specSqlSuffix_of_ext hext hsql
      cases hf : rustFileNameL name.data with
      | none =>
        exfalso
        unfold rustExtension at hext
        rw [hf] at hext
        exact Option.noConfusion hext
      | some f =>
        have hstem : rustFileStem name = some (String.mk (splitStemExtL f).1) := by
          unfold rustFileStem
          rw [hf]
          rfl
        have hmk : (String.mk ((splitStemExtL f).1)).data = (splitStemExtL f).1 := rfl
        have hstem_eq : ∀ {st' : String}, rustFileStem name = some st' →
            st'.data = (splitStemExtL f).1 := by
          intro st' h
          rw [hstem] at h
          rw [← Option.some.inj h]
        cases hsp : splitOnceChars '_' (splitStemExtL f).1 with
        | none =>
          have hres : Migration.from_file_name name = .error .InvalidFilename := by
            simp [Migration.from_file_name, hext, hsql, hstem, hmk, hsp]
          have hnoshape : ¬ specShapeSplit name := by
            rintro ⟨st', vp, np, hst', hdec, hnv, -, -⟩
            rw [hstem_eq hst'] at hdec
            have h3 := splitOnceChars_some_iff.mpr ⟨hdec, hnv⟩
            rw [hsp] at h3
            exact Option.noConfusion h3
          refine ⟨⟨?_, ?_⟩, ?_, fun hns => absurd hspec hns, fun _ _ => hres,
            fun _ hsh => absurd hsh hnoshape⟩
          · rintro ⟨m, hm⟩
            rw [hres] at hm
            exact Except.noConfusion hm
          · rintro ⟨-, st', vp, np, v, hst', hdec, hnv, hvne, hnne, -⟩
            exact absurd ⟨st', vp, np, hst', hdec, hnv, hvne, hnne⟩ hnoshape
          · intro m hm
            rw [hres] at hm
            exact Except.noConfusion hm
        | some p =>
          obtain ⟨vp, np⟩ := p
          obtain ⟨hdec, hnv⟩ := splitOnceChars_some_iff.mp hsp
          have huniq : ∀ {vpa npa : List Char},
              (splitStemExtL f).1 = vpa ++ '_' :: npa → '_' ∉ vpa →
              vpa = vp ∧ npa = np := by
            intro vpa npa h1 h2
            have h3 := splitOnceChars_some_iff.mpr ⟨h1, h2⟩
            rw [hsp] at h3
            have h4 : (vp, np) = (vpa, npa) := Option.some.inj h3
            exact ⟨(congrArg Prod.fst h4).symm, (congrArg Prod.snd h4).symm⟩
          by_cases hor : vp = [] ∨ np = []
          · have hres : Migration.from_file_name name = .error .InvalidFilename := by
              simp [Migration.from_file_name, hext, hsql, hstem, hmk, hsp, hor]
            have hnoshape : ¬ specShapeSplit name := by
              rintro ⟨st', vpa, npa, hst', hdec', hnv', hvne, hnne⟩
              rw [hstem_eq hst'] at hdec'
              obtain ⟨hv, hn⟩ := huniq hdec' hnv'
              rcases hor with h | h
              · exact hvne (hv.trans h)
              · exact hnne (hn.trans h)
            refine ⟨⟨?_, ?_⟩, ?_, fun hns => absurd hspec hns, fun _ _ => hres,
              fun _ hsh => absurd hsh hnoshape⟩
            · rintro ⟨m, hm⟩
              rw [hres] at hm
              exact Except.noConfusion hm
            · rintro ⟨-, st', vpa, npa, v, hst', hdec', hnv', hvne, hnne, -⟩
              exact absurd ⟨st', vpa, npa, hst', hdec', hnv', hvne, hnne⟩ hnoshape
            · intro m hm
              rw [hres] at hm
              exact Except.noConfusion hm
          · have hvne : vp ≠ [] := fun h => hor (Or.inl h)
            have hnne : np ≠ [] := fun h => hor (Or.inr h)
            have hshape : specShapeSplit name :=
              ⟨String.mk (splitStemExtL f).1, vp, np, hstem, hdec, hnv, hvne, hnne⟩
            cases hpar : parseU32core vp with
            | error e =>
              have hres : Migration.from_file_name name =
                  .error (.InvalidVersion e) := by
                simp [Migration.from_file_name, hext, hsql, hstem, hmk, hsp,
                  hor, hpar]
              refine ⟨⟨?_, ?_⟩, ?_, fun hns => absurd hspec hns,
                fun _ hns => absurd hshape hns, fun _ _ _ => ⟨e, hres⟩⟩
              · rintro ⟨m, hm⟩
                rw [hres] at hm
                exact Except.noConfusion hm
              · rintro ⟨-, st', vpa, npa, v, hst', hdec', hnv', -, -, hnum⟩
                rw [hstem_eq hst'] at hdec'
                obtain ⟨hv, -⟩ := huniq hdec' hnv'
                subst hv
                have h5 := parseU32core_ok_iff.mpr hnum
                rw [hpar] at h5
                exact Except.noConfusion h5
              · intro m hm
                rw [hres] at hm
                exact Except.noConfusion hm
            | ok v =>
              have hres : Migration.from_file_name name =
                  .ok ⟨v, String.mk np, name⟩ := by
                simp [Migration.from_file_name, hext, hsql, hstem, hmk, hsp,
                  hor, hpar]
              have hnum := parseU32core_ok_iff.mp hpar
              refine ⟨⟨fun _ => ⟨hspec, String.mk (splitStemExtL f).1, vp, np, v,
                  hstem, hdec, hnv, hvne, hnne, hnum⟩, fun _ => ⟨_, hres⟩⟩, ?_,
                fun hns => absurd hspec hns, fun _ hns => absurd hshape hns,
                fun _ _ hne => absurd hres (hne _)⟩
              intro m hm
              rw [hres] at hm
              obtain rfl := Except.ok.inj hm
              exact ⟨String.mk (splitStemExtL f).1, vp, np, hstem, hdec, hnv,
                hnum, rfl, rfl⟩
    · have hnospec : ¬ specSqlSuffix name :=
        not_specSqlSuffix_of_bad_ext hext hsql
      have hsqlf : eqIgnoreAsciiCase ext "sql" = false :=
        Bool.eq_false_iff.mpr hsql
      have hres : Migration.from_file_name name = .error .InvalidExtension := by
        simp [Migration.from_file_name, hext, hsqlf]
      refine ⟨⟨?_, ?_⟩, ?_, fun _ => hres, fun hs => absurd hs hnospec,
        fun hs => absurd hs hnospec⟩
      · rintro ⟨m, hm⟩
        rw [hres] at hm
        exact Except.noConfusion hm
      · rintro ⟨hs, -⟩
        exact absurd hs hnospec
      · intro m hm
        rw [hres] at hm
        exact Except.noConfusion hm

/-- Witness for C4 at the concrete name `0001_create_accounts.sql`: the parse
succeeds and the promised decomposition holds, with version 1 despite the
zero padding. -/
theorem migration_from_file_name_spec_witness :
    ∃ st vpart npart, rustFileStem "0001_create_accounts.sql" = some st ∧
      st.data = vpart ++ '_' :: npart ∧ '_' ∉ vpart ∧ specU32Numeral vpart 1 := by
  obtain ⟨st, vp, np, h1, h2, h3, h4, -, -⟩ :=
    (migration_from_file_name_spec "0001_create_accounts.sql").2.1
      ⟨1, "create_accounts", "0001_create_accounts.sql"⟩ rfl
  exact ⟨st, vp, np, h1, h2, h3, h4⟩

/-! Discovery (`Migration::from_source`) facts. -/

theorem parseAll_forall2 : ∀ (names : List String) (ps : List Migration),
    parseAll names = .ok ps →
    List.Forall₂ (fun n m => Migration.from_file_name n = .ok m) names ps
  | [], ps, h => by
    simp only [parseAll] at h
    obtain rfl := Except.ok.inj h
    exact List.Forall₂.nil
  | n :: rest, ps, h => by
    simp only [parseAll] at h
    cases hfn : Migration.from_file_name n with
    | error e =>
      simp only [hfn] at h
      exact Except.noConfusion h
    | ok m =>
      simp only [hfn] at h
      cases hra : parseAll rest with
      | error e =>
        simp only [hra] at h
        exact Except.noConfusion h
      | ok ms =>
        simp only [hra] at h
        obtain rfl := Except.ok.inj h
        exact List.Forall₂.cons hfn (parseAll_forall2 rest ms hra)

theorem parseAll_ok_of_all : ∀ (names : List String),
    (∀ n ∈ names, ∃ m, Migration.from_file_name n = .ok m) →
    ∃ ps, parseAll names = .ok ps
  | [], _ => ⟨[], rfl⟩
  | n :: rest, hall => by
    obtain ⟨m, hm⟩ := hall n (List.mem_cons_self n rest)
    obtain ⟨ps, hps⟩ :=
      parseAll_ok_of_all rest (fun x hx => hall x (List.mem_cons_of_mem n hx))
    exact ⟨m :: ps, by simp [parseAll, hm, hps]⟩

theorem parseAll_error : ∀ (names : List String) (e : MigrationParseError),
    parseAll names = .error e →
    ∃ pre bad rest, names = pre ++ bad :: rest ∧
      Migration.from_file_name bad = .error e ∧
      ∀ n ∈ pre, ∃ m, Migration.from_file_name n = .ok m
  | [], e, h => by
    simp [parseAll] at h
  | n :: rest, e, h => by
    simp only [parseAll] at h
    cases hfn : Migration.from_file_name n with
    | error e2 =>
      simp only [hfn] at h
      obtain rfl := Except.error.inj h
      exact ⟨[], n, rest, rfl, hfn, by simp⟩
    | ok m =>
      simp only [hfn] at h
      cases hra : parseAll rest with
      | error e2 =>
        simp only [hra] at h
        obtain rfl := Except.error.inj h
        obtain ⟨pre, bad, rest2, h1, h2, h3⟩ := parseAll_error rest e2 hra
        refine ⟨n :: pre, bad, rest2, by rw [List.cons_append, h1], h2, ?_⟩
        intro x hx
        rcases List.mem_cons.mp hx with rfl | hx2
        · exact ⟨m, hfn⟩
        · exact h3 x hx2
      | ok ms =>
        simp only [hra] at h
        exact Except.noConfusion h

theorem migLe_version_le {a b : Migration} (h : migLe a b) :
    a.version ≤ b.version := by
  rcases h with h | ⟨h, -⟩
  · exact le_of_lt h
  · exact le_of_eq h

theorem migLe_version_lt {a b : Migration} (h : migLe a b)
    (hne : a.version ≠ b.version) : a.version < b.version := by
  rcases h with h | ⟨h, -⟩
  · exact h
  · exact absurd h hne

theorem noAdjDup_nodup : ∀ (l : List Migration), List.Sorted migLe l →
    findAdjacentDupVersion l = none → (l.map Migration.version).Nodup
  | [], _, _ => by simp
  | [a], _, _ => by simp
  | a :: b :: t, hs, hn => by
    obtain ⟨hall, hs'⟩ := List.sorted_cons.mp hs
    by_cases h : a.version = b.version
    · simp [findAdjacentDupVersion, h] at hn
    · have hn' : findAdjacentDupVersion (b :: t) = none := by
        simpa [findAdjacentDupVersion, h] using hn
      have IH := noAdjDup_nodup (b :: t) hs' hn'
      rw [List.map_cons, List.nodup_cons]
      refine ⟨?_, IH⟩
      intro hmem
      rw [List.mem_map] at hmem
      obtain ⟨m, hm, hv⟩ := hmem
      rcases List.mem_cons.mp hm with rfl | hmt
      · exact h hv.symm
      · have h1 : a.version < b.version :=
          migLe_version_lt (hall b (List.mem_cons_self b t)) h
        have h3 : b.version ≤ m.version :=
          migLe_version_le ((List.sorted_cons.mp hs').1 m hmt)
        omega

theorem findAdjacentDupVersion_some : ∀ (l : List Migration) (v : Nat),
    findAdjacentDupVersion l = some v →
    2 ≤ ((l.map Migration.version).count v)
  | [], v, h => by simp [findAdjacentDupVersion] at h
  | [a], v, h => by simp [findAdjacentDupVersion] at h
  | a :: b :: t, v, h => by
    by_cases hab : a.version = b.version
    · have hv : a.version = v := by
        simpa [findAdjacentDupVersion, hab] using h
      subst hv
      rw [List.map_cons, List.map_cons, List.count_cons, List.count_cons]
      simp [← hab]
    · have h' : findAdjacentDupVersion (b :: t) = some v := by
        simpa [findAdjacentDupVersion, hab] using h
      have IH := findAdjacentDupVersion_some (b :: t) v h'
      rw [List.map_cons, List.count_cons]
      exact le_trans IH (Nat.le_add_right _ _)

/-- C5: `Migration::from_source` returns the parsed migrations sorted
ascending by (version, name, file name); if two otherwise-valid names parse
to the same numeric version — regardless of zero padding — discovery fails
with `DuplicateVersion` naming a version that occurs at least twice, the
first parse error among the names aborts discovery, and on an all-valid
listing the result is either the sorted list or a duplicate-version error. -/
theorem migration_from_source_spec (names : List String) :
    (∀ ms, Migration.from_source names = .ok ms →
      ∃ ps, parseAll names = .ok ps ∧
        List.Forall₂ (fun n m => Migration.from_file_name n = .ok m) names ps ∧
        ms.Perm ps ∧ List.Sorted migLe ms ∧
        (ms.map Migration.version).Nodup) ∧
    (∀ v, Migration.from_source names = .error (.DuplicateVersion v) →
      ∃ ps, parseAll names = .ok ps ∧
        List.Forall₂ (fun n m => Migration.from_file_name n = .ok m) names ps ∧
        2 ≤ ((ps.map Migration.version).count v)) ∧
    (∀ e, Migration.from_source names = .error (.Parse e) →
      ∃ pre bad rest, names = pre ++ bad :: rest ∧
        Migration.from_file_name bad = .error e ∧
        ∀ n ∈ pre, ∃ m, Migration.from_file_name n = .ok m) ∧
    ((∀ n ∈ names, ∃ m, Migration.from_file_name n = .ok m) →
      (∃ ms, Migration.from_source names = .ok ms) ∨
      ∃ v, Migration.from_source names = .error (.DuplicateVersion v)) := by
  cases hpa : parseAll names with
  | error e =>
    have hres : Migration.from_source names = .error (.Parse e) := by
      simp [Migration.from_source, hpa]
    refine ⟨?_, ?_, ?_, ?_⟩
    · intro ms hm
      rw [hres] at hm
      exact Except.noConfusion hm
    · intro v hm
      rw [hres] at hm
      have h2 := Except.error.inj hm
      exact MigrationDiscoveryError.noConfusion h2
    · intro e2 hm
      rw [hres] at hm
      have h2 := Except.error.inj hm
      injection h2 with h3
      rw [← h3]
      exact parseAll_error names e hpa
    · intro hall
      obtain ⟨ps, hps⟩ := parseAll_ok_of_all names hall
      rw [hpa] at hps
      exact Except.noConfusion hps
  | ok ps =>
    have hforall := parseAll_forall2 names ps hpa
    cases hdup : findAdjacentDupVersion (List.insertionSort migLe ps) with
    | some v =>
      have hres : Migration.from_source names = .error (.DuplicateVersion v) := by
        simp [Migration.from_source, hpa, hdup]
      refine ⟨?_, ?_, ?_, fun _ => Or.inr ⟨v, hres⟩⟩
      · intro ms hm
        rw [hres] at hm
        exact Except.noConfusion hm
      · intro v2 hm
        rw [hres] at hm
        have h2 := Except.error.inj hm
        injection h2 with h3
        have hcount := findAdjacentDupVersion_some _ v hdup
        have hperm : ((List.insertionSort migLe ps).map Migration.version).Perm
            (ps.map Migration.version) :=
          (List.perm_insertionSort migLe ps).map _
        rw [List.Perm.count_eq hperm] at hcount
        rw [← h3]
        exact ⟨ps, rfl, hforall, hcount⟩
      · intro e hm
        rw [hres] at hm
        have h2 := Except.error.inj hm
        exact MigrationDiscoveryError.noConfusion h2
    | none =>
      have hres : Migration.from_source names =
          .ok (List.insertionSort migLe ps) := by
        simp [Migration.from_source, hpa, hdup]
      have hsort : List.Sorted migLe (List.insertionSort migLe ps) :=
        List.sorted_insertionSort migLe ps
      refine ⟨?_, ?_, ?_, fun _ => Or.inl ⟨_, hres⟩⟩
      · intro ms hm
        rw [hres] at hm
        obtain rfl := Except.ok.inj hm
        exact ⟨ps, rfl, hforall, List.perm_insertionSort migLe ps, hsort,
          noAdjDup_nodup _ hsort hdup⟩
      · intro v hm
        rw [hres] at hm
        exact Except.noConfusion hm
      · intro e hm
        rw [hres] at hm
        exact Except.noConfusion hm

/-- Witness for C5: on the listing `["0002_b.sql", "0001_a.sql"]` discovery
succeeds and returns the two migrations sorted ascending by version with
pairwise-distinct versions. -/
theorem migration_from_source_spec_witness :
    ∃ ps, parseAll ["0002_b.sql", "0001_a.sql"] = .ok ps ∧
      List.Forall₂ (fun n m => Migration.from_file_name n = .ok m)
        ["0002_b.sql", "0001_a.sql"] ps ∧
      List.Perm ([⟨1, "a", "0001_a.sql"⟩, ⟨2, "b", "0002_b.sql"⟩] : List Migration) ps ∧
      List.Sorted migLe [⟨1, "a", "0001_a.sql"⟩, ⟨2, "b", "0002_b.sql"⟩] ∧
      (([⟨1, "a", "0001_a.sql"⟩, ⟨2, "b", "0002_b.sql"⟩] : List Migration).map
        Migration.version).Nodup := by
  exact (migration_from_source_spec ["0002_b.sql", "0001_a.sql"]).1
    [⟨1, "a", "0001_a.sql"⟩, ⟨2, "b", "0002_b.sql"⟩] rfl
